import Mathlib

/-!
# Verification of `scripts/build-knowledge-graph.js`

A shallow embedding of the knowledge-graph construction script of
`saiteki-employee-management`.  The script reads a JSON array of employee
records, mechanically builds a graph (Phase 1: `buildMechanicalGraph`),
optionally extends it with AI-judged relationship edges (Phase 2:
`enhanceWithAI`), and emits the graph together with run metadata (`main`).

Employee records come from `JSON.parse`, so the embedding models JavaScript
values with an explicit `JVal` type and models the script's dynamic field
accesses faithfully: property reads on `null`/`undefined` throw, `x.map` on a
non-array throws, `x.replace` on a non-string throws.  Fallible computations
live in `Except JsErr`.

Modelling conventions, stated once here:
* JSON numbers are modelled as `Int` (all numbers appearing in the data and
  in the script's comparisons are integers); `NaN` is represented by `none`
  in numeric-coercion results.
* `String.prototype.toLowerCase` is modelled on the ASCII range (`A`–`Z`).
  The synonym table and all labels in the repository contain only CJK text
  plus ASCII, and ASCII is the only cased script relevant to the claims.
* JavaScript `SameValueZero` / `===` on two values reached from distinct
  positions of a `JSON.parse` result is reference equality for arrays and
  objects, and two distinct parse nodes are never reference-equal; `svz`
  therefore returns `false` on composite values and structural equality on
  primitives.
* The external inference service of Phase 2 is abstracted by an oracle
  (`AIEnv.outcomes`) giving each batch's outcome: HTTP failure, a thrown
  error (network rejection, unparsable body, or a non-array parse result),
  or a parsed JSON array of judgment values.
-/

/-- A JavaScript value as produced by `JSON.parse`, extended with
`undefined` (the result of reading an absent property). -/
inductive JVal where
  | undefined
  | null
  | bool (b : Bool)
  | num (n : Int)
  | str (s : String)
  | arr (elems : List JVal)
  | obj (fields : List (String × JVal))
  /-- The inherited member of `Object.prototype` named `p` (a built-in
  function, or the `Object.prototype` object itself for `__proto__`).
  A plain object literal such as `synonymMap` inherits these, so
  `synonymMap[label]` can produce them.  Each is a realm-wide singleton:
  two reads of the same member are reference-equal. -/
  | proto (p : String)

/-- The only kind of runtime error the modelled script paths can raise:
a `TypeError` (property read on nullish, `.map` on a non-array,
`.replace` on a non-string). -/
inductive JsErr where
  | typeError
deriving DecidableEq

/-- JavaScript truthiness of a value. -/
def truthy : JVal → Bool
  | .undefined => false
  | .null => false
  | .bool b => b
  | .num n => n != 0
  | .str s => s != ""
  | .arr _ => true
  | .obj _ => true
  | .proto _ => true

/-- `a || b`: returns `a` when truthy, else `b`. -/
def jsOr (a b : JVal) : JVal := if truthy a then a else b

mutual

/-- JavaScript string coercion (template literals, `String(x)`):
objects render as `"[object Object]"`, arrays join their coerced elements
with `","` (with `null`/`undefined` elements rendered empty). -/
def jsToString : JVal → String
  | .undefined => "undefined"
  | .null => "null"
  | .bool true => "true"
  | .bool false => "false"
  | .num n => toString n
  | .str s => s
  | .arr elems => jsToStringElems elems
  | .obj _ => "[object Object]"
  | .proto p =>
      if p == "__proto__" then "[object Object]"
      else "function " ++ (if p == "constructor" then "Object" else p) ++
        "() { [native code] }"

/-- `Array.prototype.toString`: comma-joined element coercions. -/
def jsToStringElems : List JVal → String
  | [] => ""
  | v :: rest =>
      (match v with
        | .undefined => ""
        | .null => ""
        | w => jsToString w) ++
      (match rest with
        | [] => ""
        | _ => "," ++ jsToStringElems rest)

end

/-- Property read `v[k]`: throws a `TypeError` on `null`/`undefined`,
returns `undefined` on primitives (none of the accessed names is a
prototype method there), and looks the key up on objects.  Objects coming
from `JSON.parse` have pairwise-distinct keys, so first-match lookup agrees
with JavaScript. -/
def getProp : JVal → String → Except JsErr JVal
  | .undefined, _ => .error .typeError
  | .null, _ => .error .typeError
  | .obj fields, k => .ok ((((fields.find? (fun p => p.1 == k))).map Prod.snd).getD .undefined)
  | _, _ => .ok .undefined

/-- Optional chaining `v?.k`: `undefined` when `v` is nullish, otherwise a
plain property read. -/
def optChain (v : JVal) (k : String) : Except JsErr JVal :=
  match v with
  | .undefined => .ok .undefined
  | .null => .ok .undefined
  | v => getProp v k

/-- `SameValueZero` (used by `Set` membership and `Array.prototype.includes`)
on values reached from distinct positions of a parsed JSON document:
structural on primitives; arrays and objects compare by reference, and
distinct parse nodes are never reference-equal, hence `false`; the inherited
`Object.prototype` members are singletons, so the same member is
reference-equal to itself. -/
def svz : JVal → JVal → Bool
  | .undefined, .undefined => true
  | .null, .null => true
  | .bool a, .bool b => a == b
  | .num a, .num b => a == b
  | .str a, .str b => a == b
  | .proto a, .proto b => a == b
  | _, _ => false

/-- `[...new Set(l)]`: first occurrences, in order, under `SameValueZero`. -/
def dedupSVZ (l : List JVal) : List JVal :=
  l.foldl (fun acc v => if acc.any (fun w => svz w v) then acc else acc ++ [v]) []

/-- `v.map f` is only legal on arrays; any other receiver throws
(`.map` is not a function on it). -/
def asArray : JVal → Except JsErr (List JVal)
  | .arr elems => .ok elems
  | _ => .error .typeError

/-- Effectful `Array.prototype.filter` evaluating its predicate
left-to-right; a throw aborts the whole call. -/
def jsFilterExc (p : JVal → Except JsErr Bool) : List JVal → Except JsErr (List JVal)
  | [] => .ok []
  | x :: xs => do
      let b ← p x
      let rest ← jsFilterExc p xs
      pure (if b then x :: rest else rest)

/-- Effectful left-to-right map; a throw aborts the whole call. -/
def jsMapExc (f : α → Except JsErr β) : List α → Except JsErr (List β)
  | [] => .ok []
  | x :: xs => do
      let y ← f x
      let ys ← jsMapExc f xs
      pure (y :: ys)

/-- Effectful left fold; a throw aborts the whole call. -/
def jsFoldExc (f : σ → α → Except JsErr σ) (init : σ) : List α → Except JsErr σ
  | [] => .ok init
  | x :: xs => do
      let st ← f init x
      jsFoldExc f st xs

/-- The script's iteration `for (i) for (j = i+1)` over a list: all ordered
element pairs taken with the first component strictly earlier. -/
def ijElemPairs : List α → List (α × α)
  | [] => []
  | x :: xs => xs.map (fun y => (x, y)) ++ ijElemPairs xs

example : jsToString (.arr [.num 1, .arr [.num 2, .null], .str "a"]) = "1,2,,a" := rfl
example : truthy (.str "") = false := rfl

/-! ## Label normalizer (`synonymMap`, `normalizeLabel`, `normalizeForId`) -/

/-- The script's `synonymMap`, as the association list of its entries. -/
def synonymPairs : List (String × String) := [
  -- skills
  ("コミュニケーション能力", "コミュニケーション"),
  ("コミュニケーション力", "コミュニケーション"),
  ("チームコミュニケーション", "コミュニケーション"),
  ("問題解決能力", "問題解決"),
  ("情報収集力", "情報収集"),
  -- values
  ("自己成長", "成長"),
  ("自身の成長", "成長"),
  ("自己成長の機会", "成長"),
  ("貢献感", "貢献"),
  ("協調", "協調性"),
  -- interests
  ("生成AI", "AI技術"),
  ("AI活用", "AI技術"),
  -- motivation
  ("新しい技術の習得", "新しい知識・技術の習得"),
  ("新しい知識の習得", "新しい知識・技術の習得"),
  ("新しい知識やスキルの習得", "新しい知識・技術の習得"),
  ("新しい知識や技術の習得", "新しい知識・技術の習得"),
  ("新しい知識やスキルを習得すること", "新しい知識・技術の習得"),
  ("チームに貢献すること", "チームへの貢献"),
  ("組織への貢献", "チームへの貢献"),
  ("自身の成長を実感できること", "自己成長の実感"),
  ("周囲からの賞賛", "周囲からの感謝"),
  ("チームメンバーからの感謝", "周囲からの感謝"),
  ("他者からの賞賛", "周囲からの感謝"),
  ("感謝", "周囲からの感謝"),
  ("プロジェクトの成功", "チームの成功"),
  ("組織目標の達成", "チームの成功")]

/-- The own property names of `Object.prototype` in the script's Node
realm.  `synonymMap` is a plain object literal, so a lookup
`synonymMap[label]` that misses every own entry continues on
`Object.prototype` and, for these twelve names, returns the (truthy)
inherited member instead of `undefined`. -/
def protoProps : List String := [
  "constructor", "__defineGetter__", "__defineSetter__", "hasOwnProperty",
  "__lookupGetter__", "__lookupSetter__", "isPrototypeOf",
  "propertyIsEnumerable", "toString", "valueOf", "__proto__",
  "toLocaleString"]

/-- The character class `[\s・]` of the script's
`replace(/[\s・]/g, '_')`: JavaScript `\s` (whitespace and line
terminators) or the katakana middle dot U+30FB. -/
def isWsDot (c : Char) : Bool :=
  let n := c.toNat
  n == 9 || n == 10 || n == 11 || n == 12 || n == 13 || n == 32 ||
  n == 160 || n == 5760 || (8192 ≤ n && n ≤ 8202) || n == 8232 ||
  n == 8233 || n == 8239 || n == 8287 || n == 12288 || n == 65279 ||
  n == 12539

/-- One step of the slug substitution: `replace(/[\s・]/g, '_')` replaces
each matched single character by `'_'`, i.e. a character-wise map. -/
def slugChar (c : Char) : Char := if isWsDot c then '_' else c

/-- `toLowerCase`, modelled on the ASCII range (see the header). -/
def lowerChar (c : Char) : Char :=
  if 65 ≤ c.toNat && c.toNat ≤ 90 then Char.ofNat (c.toNat + 32) else c

/-- Character-wise string map. -/
def mapChars (f : Char → Char) (s : String) : String := ⟨s.data.map f⟩

/-- The slug map `replace(/[\s・]/g, '_').toLowerCase()` as a pure string
function. -/
def slugOf (s : String) : String := mapChars lowerChar (mapChars slugChar s)

/-- `normalizeLabel(label) = synonymMap[label] || label` on an arbitrary
JavaScript value: the property lookup coerces its key to a string; an own
entry of the table wins, otherwise the lookup continues on
`Object.prototype` and yields the inherited member for a prototype-named
key; only on a full miss does the falsy `undefined` make `|| label` return
the value unchanged.  Every own value is a nonempty string and every
inherited member is truthy, so a hit is returned as is. -/
def normalizeLabelJ (v : JVal) : JVal :=
  match synonymPairs.find? (fun p => p.1 == jsToString v) with
  | some p => .str p.2
  | none =>
      if protoProps.contains (jsToString v) then .proto (jsToString v) else v

/-- `normalizeLabel` restricted to string labels.  The result is *not*
always a string: a label naming an `Object.prototype` member returns that
inherited member. -/
def normalizeLabel (label : String) : JVal := normalizeLabelJ (.str label)

/-- `normalizeForId` applied to an arbitrary JavaScript value:
`normalizeLabel(label).replace(...)` throws a `TypeError` unless
`normalizeLabel(label)` is a string — only strings have `.replace`; in
particular the inherited `Object.prototype` members make it throw. -/
def normalizeForIdJ (v : JVal) : Except JsErr String :=
  match normalizeLabelJ v with
  | .str s => .ok (slugOf s)
  | _ => .error .typeError

/-- `normalizeForId` on a string label. -/
def normalizeForId (label : String) : Except JsErr String :=
  normalizeForIdJ (.str label)

/-- String labels whose `synonymMap` lookup stays away from
`Object.prototype`: an own entry of the table, or a miss of both the table
and the prototype. -/
def labelSafe (s : String) : Bool :=
  (synonymPairs.find? (fun p => p.1 == s)).isSome || !(protoProps.contains s)

example : normalizeLabel "自己成長" = .str "成長" := rfl
example : normalizeForId "生成AI" = .ok "ai技術" := rfl
example : normalizeForId "新しい技術の習得" = .ok "新しい知識_技術の習得" := rfl
example : normalizeForIdJ (.num 5) = .error .typeError := rfl
example : normalizeLabelJ (.str "協調") = .str "協調性" := rfl
example : normalizeLabel "constructor" = .proto "constructor" := rfl
example : normalizeForId "constructor" = .error .typeError := rfl

/-! ## Graph data model -/

/-- The five Big-Five scores of a person node, each the raw value of
`personality_traits.<trait>?.score || 0`. -/
structure Personality where
  O : JVal
  C : JVal
  E : JVal
  A : JVal
  N : JVal

/-- A graph node: a person node (immutable after creation) or an attribute
node (mutated by category/membership union on later references). -/
inductive Node where
  | person (id : String) (label job summary : JVal) (pers : Personality)
  | attr (id : String) (label : JVal) (categories : List String)
      (color : String) (connectedPeople : List JVal)

/-- The id of a node. -/
def Node.id : Node → String
  | .person i _ _ _ _ => i
  | .attr i _ _ _ _ => i

/-- Whether a node is a person node. -/
def Node.isPerson : Node → Bool
  | .person _ _ _ _ _ => true
  | .attr _ _ _ _ _ => false

/-- The three per-category overlap lists carried by a `SHARES` edge. -/
structure SharedLists where
  skills : List JVal
  values : List JVal
  interests : List JVal

/-- A graph edge.  Fields that only some edge variants carry in the script's
JavaScript objects are optional here: `shared` on `SHARES` edges,
`direction` on `MENTORING_FIT` edges, `reason` and `ai_generated` on the
AI-generated edges. -/
structure Edge where
  source : String
  target : String
  type : String
  weight : JVal
  shared : Option SharedLists := none
  direction : Option JVal := none
  reason : Option JVal := none
  ai_generated : Bool := false

/-- The node/edge document built by Phase 1 and extended by Phase 2. -/
structure Graph where
  nodes : List Node
  edges : List Edge

/-! ## Phase 1: `buildMechanicalGraph` -/

/-- One entry of the script's `attrConfig`. -/
structure AttrCfg where
  tag : String
  field : String
  subField : String
  edgeType : String
  color : String
deriving DecidableEq

/-- The four attribute-extraction dimensions, in the script's object order. -/
def attrConfig : List AttrCfg := [
  ⟨"skill", "work_styles_and_strengths", "dominant_strengths", "HAS_SKILL", "#60a5fa"⟩,
  ⟨"value", "values_and_motivators", "core_values", "VALUES", "#34d399"⟩,
  ⟨"interest", "current_state", "recent_topics_of_interest", "INTERESTED_IN", "#fb923c"⟩,
  ⟨"motivation", "values_and_motivators", "motivation_triggers", "MOTIVATED_BY", "#f472b6"⟩]

/-- `x !== false` for the value of an `isActive` read: only the literal
`false` excludes a record. -/
def isActiveKeep : JVal → Bool
  | .bool false => false
  | _ => true

/-- `employees.filter(e => e.isActive !== false)`; the property read throws
on a nullish record. -/
def filterActive (employees : List JVal) : Except JsErr (List JVal) :=
  jsFilterExc (fun e => do
    let a ← getProp e "isActive"
    pure (isActiveKeep a)) employees

/-- One `personality_traits.<trait>?.score || 0` read. -/
def personalityScore (personality : JVal) (trait : String) : Except JsErr JVal := do
  let t ← getProp personality trait
  let s ← optChain t "score"
  pure (jsOr s (.num 0))

/-- Step 1 of Phase 1: the person node pushed for one active employee. -/
def mkPersonNode (emp : JVal) : Except JsErr Node := do
  let name ← getProp emp "name"
  let job ← getProp emp "job"
  let summary ← getProp emp "overall_summary"
  let pt ← getProp emp "personality_traits"
  let personality := jsOr pt (.obj [])
  let o ← personalityScore personality "openness"
  let c ← personalityScore personality "conscientiousness"
  let e ← personalityScore personality "extraversion"
  let a ← personalityScore personality "agreeableness"
  let n ← personalityScore personality "neuroticism"
  pure (Node.person ("person:" ++ jsToString name) name job
    (jsOr summary (.str "")) ⟨o, c, e, a, n⟩)

/-- The mutable state of the Phase-1 loops: the node and edge arrays, the
`nodeMap` key set and the `edgeKeys` set. -/
structure BuildState where
  nodes : List Node
  edges : List Edge
  nodeIds : List String
  edgeKeys : List String

/-- The category/membership union the script performs on the attribute node
found by `nodes.find(n => n.id === nodeId)` (applied to the first node with
the given id; person nodes never match an `attr:`-prefixed id and are left
unchanged if they were to). -/
def updateFirstNode (nodeId : String) (f : Node → Node) : List Node → List Node
  | [] => []
  | n :: ns => if n.id == nodeId then f n :: ns else n :: updateFirstNode nodeId f ns

/-- The mutation the script applies to the found attribute node: add the
dimension tag to `categories` unless present, and append the employee's
`name` to `connectedPeople` unless `includes` finds it. -/
def attrNodeUpd (tag : String) (empName : JVal) : Node → Node
  | .attr i lb cats col people =>
      let cats := if cats.contains tag then cats else cats ++ [tag]
      let people := if people.any (fun w => svz w empName) then people
        else people ++ [empName]
      .attr i lb cats col people
  | n => n

/-- The body of the innermost Phase-1 attribute loop for one canonical item:
upsert the attribute node, union its categories and connected people, and
push the dimension edge unless its `edgeKey` was already seen. -/
def processItem (cfg : AttrCfg) (emp : JVal) (st : BuildState) (item : JVal) :
    Except JsErr BuildState := do
  let slug ← normalizeForIdJ item
  let nodeId := "attr:" ++ slug
  let st :=
    if st.nodeIds.contains nodeId then st
    else { st with
      nodes := st.nodes ++ [.attr nodeId item [cfg.tag] cfg.color []],
      nodeIds := st.nodeIds ++ [nodeId] }
  let empName ← getProp emp "name"
  let st := { st with nodes := updateFirstNode nodeId (attrNodeUpd cfg.tag empName) st.nodes }
  let edgeKey := jsToString empName ++ "->" ++ nodeId
  if st.edgeKeys.contains edgeKey then pure st
  else pure { st with
    edges := st.edges ++ [{ source := "person:" ++ jsToString empName,
                            target := nodeId, type := cfg.edgeType,
                            weight := .num 1 }],
    edgeKeys := st.edgeKeys ++ [edgeKey] }

/-- The per-employee body of a Phase-1 dimension pass: read the dimension's
list (`emp[cfg.field]` guarded for truthiness, `fieldData[cfg.subField] || []`,
which throws if a truthy non-array ends up as the receiver of `.map`),
normalize, deduplicate, and process each canonical item. -/
def processEmpAttr (cfg : AttrCfg) (st : BuildState) (emp : JVal) :
    Except JsErr BuildState := do
  let fieldData ← getProp emp cfg.field
  if !truthy fieldData then pure st
  else do
    let raw ← getProp fieldData cfg.subField
    let items ← asArray (jsOr raw (.arr []))
    let normalizedItems := dedupSVZ (items.map normalizeLabelJ)
    jsFoldExc (processItem cfg emp) st normalizedItems

/-- The helper `getAttrs` of Phase-1 step 3: the canonical, per-employee
deduplicated attribute list of one dimension. -/
def getAttrs (emp : JVal) (field subField : String) : Except JsErr (List JVal) := do
  let data ← getProp emp field
  if !truthy data then pure []
  else do
    let raw ← getProp data subField
    let items ← asArray (jsOr raw (.arr []))
    pure (dedupSVZ (items.map normalizeLabelJ))

/-- The script's `aSkills.filter(s => bSkills.includes(s))`: the overlap
list of one category (`includes` is `SameValueZero` membership). -/
def sharedOf (xs ys : List JVal) : List JVal :=
  xs.filter (fun s => ys.any (fun w => svz w s))

/-- The script's `totalShared`: the summed overlap cardinalities of the
skill, value and interest categories (motivation triggers excluded). -/
def sharedWeightOf (aSk bSk aVl bVl aIn bIn : List JVal) : Nat :=
  (sharedOf aSk bSk).length + (sharedOf aVl bVl).length + (sharedOf aIn bIn).length

/-- The `SHARES` edge object the script pushes for a pair with positive
overlap. -/
def mkSharesEdge (aName bName : JVal) (aSk bSk aVl bVl aIn bIn : List JVal) : Edge :=
  { source := "person:" ++ jsToString aName,
    target := "person:" ++ jsToString bName,
    type := "SHARES", weight := .num (sharedWeightOf aSk bSk aVl bVl aIn bIn),
    shared := some ⟨sharedOf aSk bSk, sharedOf aVl bVl, sharedOf aIn bIn⟩ }

/-- Phase-1 step 3 for one pair `(a, b)`: the `SHARES` edge pushed when the
total canonical overlap is positive (motivation triggers excluded), or
nothing.  The script's local `sharedSkills`/`sharedValues`/`sharedInterests`
and `totalShared` constants are the `sharedOf`/`sharedWeightOf` helpers
above. -/
def sharesForPair (a b : JVal) : Except JsErr (List Edge) := do
  let aSkills ← getAttrs a "work_styles_and_strengths" "dominant_strengths"
  let bSkills ← getAttrs b "work_styles_and_strengths" "dominant_strengths"
  let aValues ← getAttrs a "values_and_motivators" "core_values"
  let bValues ← getAttrs b "values_and_motivators" "core_values"
  let aInterests ← getAttrs a "current_state" "recent_topics_of_interest"
  let bInterests ← getAttrs b "current_state" "recent_topics_of_interest"
  if 0 < sharedWeightOf aSkills bSkills aValues bValues aInterests bInterests then do
    let aName ← getProp a "name"
    let bName ← getProp b "name"
    pure [mkSharesEdge aName bName aSkills bSkills aValues bValues aInterests bInterests]
  else pure []

/-- Phase-1 step 3: one `sharesForPair` per `i<j` pair, in loop order. -/
def sharesEdges (activeEmployees : List JVal) : Except JsErr (List Edge) := do
  let ess ← jsMapExc (fun p => sharesForPair p.1 p.2) (ijElemPairs activeEmployees)
  pure ess.flatten

/-- Phase 1, `buildMechanicalGraph(employees)`: filter to the active
employees, push one person node each, run the four dimension passes, then
append the pairwise `SHARES` edges. -/
def buildMechanicalGraph (employees : List JVal) : Except JsErr Graph := do
  let activeEmployees ← filterActive employees
  let personNodes ← jsMapExc mkPersonNode activeEmployees
  let st0 : BuildState :=
    ⟨personNodes, [], personNodes.map Node.id, []⟩
  let st ← jsFoldExc (fun st cfg => jsFoldExc (processEmpAttr cfg) st activeEmployees)
    st0 attrConfig
  let shares ← sharesEdges activeEmployees
  pure ⟨st.nodes, st.edges ++ shares⟩

/-! ## Phase 2: `enhanceWithAI` -/

/-- Decimal integer parsing inside JavaScript `ToNumber` of a string
(`Number(s)`): the trimmed string is empty (then `0`), or an optional sign
followed by digits; anything else is `NaN` (`none`).  Fractional,
exponential and hexadecimal forms are not modelled — the scores of the
judgment schema are integers. -/
def strToNumber (s : String) : Option Int :=
  let t := (((s.data.dropWhile isWsDot).reverse.dropWhile isWsDot).reverse)
  if t.isEmpty then some 0
  else
    let (sign, digits) :=
      match t with
      | '-' :: rest => ((-1 : Int), rest)
      | '+' :: rest => ((1 : Int), rest)
      | _ => ((1 : Int), t)
    if digits.isEmpty || !digits.all Char.isDigit then none
    else some (sign * (digits.foldl (fun acc c => 10 * acc + (c.toNat - 48)) 0 : Nat))

/-- JavaScript `ToNumber` on our value model (`none` is `NaN`): arrays and
objects coerce through their string form. -/
def toNumber : JVal → Option Int
  | .undefined => none
  | .null => some 0
  | .bool b => some (if b then 1 else 0)
  | .num n => some n
  | .str s => strToNumber s
  | .arr elems => strToNumber (jsToStringElems elems)
  | .obj _ => strToNumber "[object Object]"
  | .proto p => strToNumber (jsToString (.proto p))

/-- JavaScript `x >= n` for a numeric literal `n`: `false` when either side
is `NaN`. -/
def jsGE (v : JVal) (n : Int) : Bool :=
  match toNumber v with
  | some m => n ≤ m
  | none => false

/-- The edges appended for one judgment object `r` of a parsed batch
response: one `COMPLEMENTS`, `MENTORING_FIT` and/or `TEAM_SYNERGY` edge for
each field whose score passes `>= 5`.  The very first property read throws
when `r` is nullish (aborting the enclosing `forEach`); after it succeeds
no later step of this body can throw. -/
def judgeEdges (r : JVal) : Except JsErr (List Edge) := do
  let comp ← getProp r "complements"
  let compScore ← optChain comp "score"
  let compEdges ←
    if jsGE compScore 5 then do
      let pa ← getProp r "person_a"
      let pb ← getProp r "person_b"
      let w ← getProp comp "score"
      let reason ← getProp comp "reason"
      pure [{ source := "person:" ++ jsToString pa,
              target := "person:" ++ jsToString pb,
              type := "COMPLEMENTS", weight := w,
              reason := some reason, ai_generated := true : Edge }]
    else pure []
  let ment ← getProp r "mentoring_fit"
  let mentScore ← optChain ment "score"
  let mentEdges ←
    if jsGE mentScore 5 then do
      let pa ← getProp r "person_a"
      let pb ← getProp r "person_b"
      let w ← getProp ment "score"
      let dir ← getProp ment "direction"
      let reason ← getProp ment "reason"
      pure [{ source := "person:" ++ jsToString pa,
              target := "person:" ++ jsToString pb,
              type := "MENTORING_FIT", weight := w,
              direction := some dir,
              reason := some reason, ai_generated := true : Edge }]
    else pure []
  let syn ← getProp r "team_synergy"
  let synScore ← optChain syn "score"
  let synEdges ←
    if jsGE synScore 5 then do
      let pa ← getProp r "person_a"
      let pb ← getProp r "person_b"
      let w ← getProp syn "score"
      let reason ← getProp syn "reason"
      pure [{ source := "person:" ++ jsToString pa,
              target := "person:" ++ jsToString pb,
              type := "TEAM_SYNERGY", weight := w,
              reason := some reason, ai_generated := true : Edge }]
    else pure []
  pure (compEdges ++ mentEdges ++ synEdges)

/-- `results.forEach(...)` inside the batch `try`: judgments are processed
in order; a throw is caught by the surrounding `catch`, keeping the edges
already pushed and dropping the rest of the batch. -/
def processResults : List JVal → List Edge
  | [] => []
  | r :: rest =>
      match judgeEdges r with
      | .ok es => es ++ processResults rest
      | .error _ => []

/-- The outcome of one batch request, abstracting the external service:
a non-success HTTP response (`continue`), a thrown error (`fetch`
rejection, unparsable body, or a non-array parse result whose `forEach`
throws — all caught by the batch's `catch`), or a parsed JSON array of
judgment values. -/
inductive BatchOutcome where
  | httpError
  | exn
  | parsed (results : List JVal)

/-- The edges one batch contributes to `aiEdges`. -/
def batchContrib : BatchOutcome → List Edge
  | .httpError => []
  | .exn => []
  | .parsed results => processResults results

/-- The Phase-2 environment: the `--skip-ai` flag, the `GEMINI_API_KEY` and
`GCP_PROJECT_ID` environment variables, and the oracle giving each batch
index its outcome. -/
structure AIEnv where
  skipAI : Bool
  apiKey : Option String
  projectId : Option String
  outcomes : Nat → BatchOutcome

/-- Truthiness of an environment variable (`!!API_KEY`): present and
nonempty. -/
def envTruthy : Option String → Bool
  | none => false
  | some s => s != ""

/-- `BATCH_SIZE = 5` slices: `pairs.slice(batchStart, batchStart + 5)` for
`batchStart = 0, 5, 10, ...`. -/
def chunksOf5 : List α → List (List α)
  | [] => []
  | [a] => [[a]]
  | [a, b] => [[a, b]]
  | [a, b, c] => [[a, b, c]]
  | [a, b, c, d] => [[a, b, c, d]]
  | a :: b :: c :: d :: e :: rest => [a, b, c, d, e] :: chunksOf5 rest

/-- Phase 2, `enhanceWithAI(graph, employees)`: pass the graph through
unchanged when `--skip-ai` was given or a required credential is missing;
otherwise rebuild the active-pair universe, process it in batches of five,
and append the accumulated `aiEdges` to `graph.edges`.  Batch `k`'s request
and response are abstracted by `env.outcomes k`. -/
def enhanceWithAI (env : AIEnv) (graph : Graph) (employees : List JVal) :
    Except JsErr Graph :=
  if env.skipAI then .ok graph
  else if !(envTruthy env.apiKey && envTruthy env.projectId) then .ok graph
  else do
    let activeEmployees ← filterActive employees
    let pairs := ijElemPairs activeEmployees
    let batches := chunksOf5 pairs
    let aiEdges := ((List.range batches.length).map
      (fun k => batchContrib (env.outcomes k))).flatten
    pure { graph with edges := graph.edges ++ aiEdges }

/-! ## `main`: metadata and the output document -/

/-- The output metadata (the wall-clock `generated_at` timestamp is not
modelled). -/
structure Metadata where
  source : String
  employee_count : Nat
  node_count : Nat
  edge_count : Nat
  ai_enhanced : Bool

/-- The output document `{metadata, nodes, edges}`. -/
structure Output where
  metadata : Metadata
  nodes : List Node
  edges : List Edge

/-- The `main` pipeline after reading the data file: Phase 1, Phase 2, then
the metadata wrapper (`ai_enhanced = !SKIP_AI && !!API_KEY && !!PROJECT_ID`). -/
def mainOutput (env : AIEnv) (employees : List JVal) : Except JsErr Output := do
  let graph ← buildMechanicalGraph employees
  let graph ← enhanceWithAI env graph employees
  let active ← filterActive employees
  pure { metadata := { source := "employees.json",
                       employee_count := active.length,
                       node_count := graph.nodes.length,
                       edge_count := graph.edges.length,
                       ai_enhanced := !env.skipAI &&
                         (envTruthy env.apiKey && envTruthy env.projectId) },
         nodes := graph.nodes,
         edges := graph.edges }

/-! ## Well-formed records -/

/-- Total property read, used to state shape conditions (it agrees with
`getProp` on every non-nullish value, see `getProp_eq_propD`). -/
def propD (v : JVal) (k : String) : JVal :=
  match getProp v k with
  | .ok w => w
  | .error _ => .undefined

/-- Shape condition on the value found in an attribute-list position: falsy
(tolerated by `|| []`) or an array of strings, each avoiding the
`Object.prototype` stray of the synonym lookup (a label such as
`constructor` makes `normalizeForId` throw even though it is a string). -/
def wfList : JVal → Bool
  | .arr elems =>
      elems.all (fun e => match e with | .str s => labelSafe s | _ => false)
  | v => !truthy v

/-- A sufficient shape condition on one employee record under which Phase 1
cannot throw: the record is not nullish, and for each of the four attribute
dimensions, if the profile block is truthy then its attribute list is falsy
or an array of strings each of which keeps the synonym lookup off
`Object.prototype`.  (Absent or falsy fields are always tolerated by the
script itself.) -/
def wfRecord (v : JVal) : Bool :=
  match v with
  | .undefined => false
  | .null => false
  | _ => attrConfig.all (fun cfg =>
      let fd := propD v cfg.field
      !truthy fd || wfList (propD fd cfg.subField))

/-! ## Lemmas about the normalizer -/

lemma toNat_ofNat_add32 {n : Nat} (h1 : 65 ≤ n) (h2 : n ≤ 90) :
    (Char.ofNat (n + 32)).toNat = n + 32 := by
  have hv : Nat.isValidChar (n + 32) := by left; omega
  simp [Char.ofNat, hv, Char.ofNatAux, Char.toNat, UInt32.toNat, UInt32.ofNat',
    BitVec.toNat_ofNatLt]

/-- The slug substitution character map never produces an ASCII capital. -/
lemma lowerChar_slugChar_not_upper (c : Char) :
    ¬(65 ≤ (lowerChar (slugChar c)).toNat ∧ (lowerChar (slugChar c)).toNat ≤ 90) := by
  unfold lowerChar
  split
  · rename_i h
    simp only [Bool.and_eq_true, decide_eq_true_eq] at h
    rw [toNat_ofNat_add32 h.1 h.2]
    omega
  · rename_i h
    simp only [Bool.and_eq_true, decide_eq_true_eq, not_and, not_le] at h
    omega

/-- The slug substitution character map never produces a `[\s・]` character. -/
lemma lowerChar_slugChar_not_wsDot (c : Char) :
    isWsDot (lowerChar (slugChar c)) = false := by
  unfold slugChar
  split
  · unfold lowerChar
    decide
  · rename_i hws
    unfold lowerChar
    split
    · rename_i h
      simp only [Bool.and_eq_true, decide_eq_true_eq] at h
      have h32 := toNat_ofNat_add32 h.1 h.2
      simp only [isWsDot, h32]
      simp only [Bool.or_eq_false_iff, Bool.and_eq_false_iff]
      refine ⟨⟨⟨⟨⟨⟨⟨⟨⟨⟨⟨⟨⟨⟨?_, ?_⟩, ?_⟩, ?_⟩, ?_⟩, ?_⟩, ?_⟩, ?_⟩, ?_⟩, ?_⟩, ?_⟩, ?_⟩, ?_⟩, ?_⟩, ?_⟩ <;>
        simp <;> omega
    · simpa using hws

/-- Characters that are neither in `[\s・]` nor ASCII capitals are fixed by
the slug substitution map. -/
lemma lowerChar_slugChar_fixed (c : Char) (hws : isWsDot c = false)
    (hup : ¬(65 ≤ c.toNat ∧ c.toNat ≤ 90)) : lowerChar (slugChar c) = c := by
  unfold slugChar
  rw [hws]
  simp only [Bool.false_eq_true, if_false]
  unfold lowerChar
  split
  · rename_i h
    simp only [Bool.and_eq_true, decide_eq_true_eq] at h
    exact absurd h hup
  · rfl

/-- A character that is neither `'_'` nor ASCII lowercase has no other
preimage than itself under the slug substitution map. -/
lemma lowerChar_slugChar_rigid (c d : Char) (h1 : c ≠ '_')
    (h2 : ¬(97 ≤ c.toNat ∧ c.toNat ≤ 122)) (h : lowerChar (slugChar d) = c) :
    d = c := by
  by_cases hws : isWsDot d = true
  · exfalso
    apply h1
    rw [← h]
    unfold slugChar
    rw [hws]
    simp only [if_true]
    unfold lowerChar
    decide
  · rw [Bool.not_eq_true] at hws
    unfold slugChar at h
    rw [hws] at h
    simp only [Bool.false_eq_true, if_false] at h
    unfold lowerChar at h
    split at h
    · rename_i hu
      simp only [Bool.and_eq_true, decide_eq_true_eq] at hu
      exfalso
      apply h2
      rw [← h, toNat_ofNat_add32 hu.1 hu.2]
      omega
    · exact h

/-- Mapping the slug substitution over a character list whose target
consists only of rigid characters forces the source to equal the target. -/
lemma map_slug_rigid : ∀ (ks : List Char),
    (∀ c ∈ ks, ¬(c = '_') ∧ ¬(97 ≤ c.toNat ∧ c.toNat ≤ 122)) →
    ∀ l : List Char, l.map (fun d => lowerChar (slugChar d)) = ks → l = ks := by
  intro ks hks l
  induction ks generalizing l with
  | nil => intro h; simpa using h
  | cons k ks ih =>
      intro h
      match l with
      | [] => simp at h
      | d :: l' =>
          simp only [List.map_cons, List.cons.injEq] at h
          have hk := hks k (by simp)
          have hd := lowerChar_slugChar_rigid k d hk.1 hk.2 h.1
          have hl' := ih (fun c hc => hks c (by simp [hc])) l' h.2
          rw [hd, hl']

/-- Per-key dichotomy for the synonym table: every key either consists only
of rigid characters (no underscore, no ASCII lowercase) or contains an
ASCII capital. -/
lemma synonym_key_classification : ∀ p ∈ synonymPairs,
    (∀ c ∈ p.1.data, ¬(c = '_') ∧ ¬(97 ≤ c.toNat ∧ c.toNat ≤ 122)) ∨
    (∃ c ∈ p.1.data, 65 ≤ c.toNat ∧ c.toNat ≤ 90) := by decide

/-- No value of the synonym table is itself a key, and none names an
`Object.prototype` member. -/
lemma synonym_values_safe : ∀ p ∈ synonymPairs,
    synonymPairs.find? (fun q => q.1 == p.2) = none ∧
    protoProps.contains p.2 = false := by decide

/-- The string form of an inherited `Object.prototype` member neither hits
the synonym table nor names a prototype member itself. -/
lemma proto_names_safe : ∀ s ∈ protoProps,
    synonymPairs.find? (fun q => q.1 == jsToString (.proto s)) = none ∧
    protoProps.contains (jsToString (.proto s)) = false := by decide

lemma mapChars_data (f : Char → Char) (s : String) :
    (mapChars f s).data = s.data.map f := rfl

/-- The slug-and-lowercase composition as a single character map. -/
lemma slugOf_data (s : String) :
    (slugOf s).data = s.data.map (fun c => lowerChar (slugChar c)) := by
  simp only [slugOf, mapChars_data, List.map_map]
  rfl

/-- The slug map is idempotent (each output character is fixed by it). -/
lemma slugOf_idem (t : String) : slugOf (slugOf t) = slugOf t := by
  apply String.ext
  rw [slugOf_data]
  have hfix : ∀ c ∈ (slugOf t).data, lowerChar (slugChar c) = c := by
    intro c hc
    rcases List.mem_map.1 (slugOf_data t ▸ hc) with ⟨d, _, hd⟩
    exact hd ▸ lowerChar_slugChar_fixed _
      (lowerChar_slugChar_not_wsDot d)
      (lowerChar_slugChar_not_upper d)
  calc (slugOf t).data.map (fun c => lowerChar (slugChar c))
      = (slugOf t).data.map id := List.map_congr_left hfix
    _ = (slugOf t).data := List.map_id _

/-- A string produced by `normalizeLabel` is never a key of the synonym
table. -/
lemma canonJ_not_key {v : JVal} {t : String} (h : normalizeLabelJ v = .str t) :
    ∀ q ∈ synonymPairs, q.1 ≠ t := by
  intro q hq
  cases hf : synonymPairs.find? (fun p => p.1 == jsToString v) with
  | some p =>
      have h1 : normalizeLabelJ v = .str p.2 := by
        unfold normalizeLabelJ
        rw [hf]
      rw [h1] at h
      injection h with h2
      rw [← h2]
      intro hcontra
      have hnone := List.find?_eq_none.1
        (synonym_values_safe p (List.mem_of_find?_eq_some hf)).1 q hq
      simp [hcontra] at hnone
  | none =>
      by_cases hnp : protoProps.contains (jsToString v) = true
      · have h1 : normalizeLabelJ v = .proto (jsToString v) := by
          unfold normalizeLabelJ
          rw [hf, if_pos hnp]
        rw [h1] at h
        exact absurd h (by simp)
      · rw [Bool.not_eq_true] at hnp
        have h1 : normalizeLabelJ v = v := by
          unfold normalizeLabelJ
          rw [hf, hnp]
          simp
        rw [h1] at h
        subst h
        have hnone := List.find?_eq_none.1 hf q hq
        have hjs : jsToString (JVal.str t) = t := rfl
        rw [hjs] at hnone
        intro hcontra
        simp [hcontra] at hnone

/-- A string produced by `normalizeLabel` never names an `Object.prototype`
member (otherwise the lookup would have returned the member itself). -/
lemma canonJ_not_proto {v : JVal} {t : String} (h : normalizeLabelJ v = .str t) :
    protoProps.contains t = false := by
  cases hf : synonymPairs.find? (fun p => p.1 == jsToString v) with
  | some p =>
      have h1 : normalizeLabelJ v = .str p.2 := by
        unfold normalizeLabelJ
        rw [hf]
      rw [h1] at h
      injection h with h2
      rw [← h2]
      exact (synonym_values_safe p (List.mem_of_find?_eq_some hf)).2
  | none =>
      by_cases hnp : protoProps.contains (jsToString v) = true
      · have h1 : normalizeLabelJ v = .proto (jsToString v) := by
          unfold normalizeLabelJ
          rw [hf, if_pos hnp]
        rw [h1] at h
        exact absurd h (by simp)
      · rw [Bool.not_eq_true] at hnp
        have h1 : normalizeLabelJ v = v := by
          unfold normalizeLabelJ
          rw [hf, hnp]
          simp
        rw [h1] at h
        subst h
        have hjs : jsToString (JVal.str t) = t := rfl
        rw [hjs] at hnp
        simpa using hnp

/-- A string produced by `normalizeLabel` is a fixed point of
`normalizeLabel`. -/
lemma canonJ_fixed {v : JVal} {t : String} (h : normalizeLabelJ v = .str t) :
    normalizeLabelJ (.str t) = .str t := by
  have hkey : synonymPairs.find? (fun p => p.1 == jsToString (JVal.str t)) = none := by
    rw [List.find?_eq_none]
    intro q hq
    have hqt := canonJ_not_key h q hq
    have hjs : jsToString (JVal.str t) = t := rfl
    simp only [hjs]
    simpa using hqt
  unfold normalizeLabelJ
  rw [hkey]
  have hnp : protoProps.contains (jsToString (JVal.str t)) = false := by
    have hjs : jsToString (JVal.str t) = t := rfl
    rw [hjs]
    exact canonJ_not_proto h
  rw [hnp]
  simp

/-- `normalizeLabel` is idempotent on every JavaScript value (the only part
of the spec's idempotence statement that survives the prototype chain). -/
lemma normalizeLabelJ_idem (v : JVal) :
    normalizeLabelJ (normalizeLabelJ v) = normalizeLabelJ v := by
  cases hf : synonymPairs.find? (fun p => p.1 == jsToString v) with
  | some p =>
      have h1 : normalizeLabelJ v = .str p.2 := by
        unfold normalizeLabelJ
        rw [hf]
      rw [h1]
      exact canonJ_fixed h1
  | none =>
      by_cases hnp : protoProps.contains (jsToString v) = true
      · have h1 : normalizeLabelJ v = .proto (jsToString v) := by
          unfold normalizeLabelJ
          rw [hf, if_pos hnp]
        rw [h1]
        have hmem : jsToString v ∈ protoProps := by
          rw [← List.elem_iff]
          exact hnp
        have hsafe := proto_names_safe (jsToString v) hmem
        unfold normalizeLabelJ
        rw [hsafe.1, hsafe.2]
        simp
      · rw [Bool.not_eq_true] at hnp
        have h1 : normalizeLabelJ v = v := by
          unfold normalizeLabelJ
          rw [hf, hnp]
          simp
        rw [h1, h1]

/-- The slug of a canonical label is never a key of the synonym table. -/
lemma slugOf_not_key {v : JVal} {t : String} (h : normalizeLabelJ v = .str t) :
    ∀ q ∈ synonymPairs, q.1 ≠ slugOf t := by
  intro q hq hcontra
  rcases synonym_key_classification q hq with hrigid | hupper
  · have hform := map_slug_rigid q.1.data hrigid t.data
      (by rw [← slugOf_data, ← hcontra])
    exact canonJ_not_key h q hq (String.ext hform.symm)
  · rcases hupper with ⟨c, hc, hup⟩
    rw [hcontra, slugOf_data] at hc
    rcases List.mem_map.1 hc with ⟨d, _, hd⟩
    exact lowerChar_slugChar_not_upper d (hd ▸ hup)

/-- One successful `normalizeForId` step, characterized. -/
lemma normalizeForIdJ_char {v : JVal} {t : String}
    (h : normalizeLabelJ v = .str t) : normalizeForIdJ v = .ok (slugOf t) := by
  unfold normalizeForIdJ
  rw [h]

/-- `normalizeForId` applied to one of its own outputs returns it unchanged
— provided the slug does not name an `Object.prototype` member (slugs such
as `constructor` or `__proto__` make a second application throw). -/
lemma normalizeForId_ok_frozen {x y : String} (h : normalizeForId x = .ok y)
    (hp : protoProps.contains y = false) : normalizeForId y = .ok y := by
  unfold normalizeForId normalizeForIdJ at h
  cases hl : normalizeLabelJ (.str x) with
  | str t =>
      rw [hl] at h
      injection h with h2
      have hy : y = slugOf t := h2.symm
      have hkey : synonymPairs.find? (fun p => p.1 == jsToString (JVal.str y)) = none := by
        rw [List.find?_eq_none]
        intro q hq
        have hqy := slugOf_not_key hl q hq
        rw [← hy] at hqy
        have hjs : jsToString (JVal.str y) = y := rfl
        simp only [hjs]
        simpa using hqy
      have hfix : normalizeLabelJ (.str y) = .str y := by
        unfold normalizeLabelJ
        rw [hkey]
        have hcy : protoProps.contains (jsToString (JVal.str y)) = false := by
          have hjs : jsToString (JVal.str y) = y := rfl
          rw [hjs]
          exact hp
        rw [hcy]
        simp
      unfold normalizeForId
      rw [normalizeForIdJ_char hfix, hy, slugOf_idem]
  | undefined => rw [hl] at h; exact absurd h (by simp)
  | null => rw [hl] at h; exact absurd h (by simp)
  | bool b => rw [hl] at h; exact absurd h (by simp)
  | num n => rw [hl] at h; exact absurd h (by simp)
  | arr l => rw [hl] at h; exact absurd h (by simp)
  | obj l => rw [hl] at h; exact absurd h (by simp)
  | proto p => rw [hl] at h; exact absurd h (by simp)

/-- A safe string label has a string canonical form. -/
lemma labelSafe_canon {s : String} (h : labelSafe s = true) :
    ∃ t, normalizeLabelJ (.str s) = .str t := by
  unfold labelSafe at h
  cases hf : synonymPairs.find? (fun p => p.1 == s) with
  | some p =>
      refine ⟨p.2, ?_⟩
      unfold normalizeLabelJ
      have : synonymPairs.find? (fun p => p.1 == jsToString (JVal.str s)) = some p := hf
      rw [this]
  | none =>
      rw [hf] at h
      simp only [Option.isSome_none, Bool.false_or, Bool.not_eq_true'] at h
      refine ⟨s, ?_⟩
      unfold normalizeLabelJ
      have h1 : synonymPairs.find? (fun p => p.1 == jsToString (JVal.str s)) = none := hf
      rw [h1]
      have h2 : protoProps.contains (jsToString (JVal.str s)) = false := h
      rw [h2]
      simp

/-- A safe label's canonical form has a computable slug: the inner
`normalizeLabel` of the script's `normalizeForId(normalizedItem)` call
stays a string, so `.replace` succeeds. -/
lemma normalizeForIdJ_of_safe {s : String} (h : labelSafe s = true) :
    ∃ t, normalizeForIdJ (normalizeLabelJ (.str s)) = .ok t := by
  rcases labelSafe_canon h with ⟨t, ht⟩
  rw [ht]
  exact ⟨slugOf t, normalizeForIdJ_char (canonJ_fixed ht)⟩

/-! ## Generic lemmas about the effectful combinators -/

lemma bind_ok {α β : Type} {x : Except JsErr α} {f : α → Except JsErr β} {b : β}
    (h : (x >>= f) = .ok b) : ∃ a, x = .ok a ∧ f a = .ok b := by
  cases x with
  | error e => simp [Bind.bind, Except.bind] at h
  | ok a => exact ⟨a, rfl, by simpa [Bind.bind, Except.bind] using h⟩

lemma jsFoldExc_cons {σ α : Type} (f : σ → α → Except JsErr σ) (st : σ) (x : α)
    (xs : List α) :
    jsFoldExc f st (x :: xs) = (f st x) >>= (fun st1 => jsFoldExc f st1 xs) := rfl

/-- Invariant preservation through `jsFoldExc`. -/
lemma jsFoldExc_inv {σ α : Type} {P : σ → Prop} {f : σ → α → Except JsErr σ} :
    ∀ {l : List α} {st st' : σ},
      (∀ s a s', a ∈ l → P s → f s a = .ok s' → P s') →
      P st → jsFoldExc f st l = .ok st' → P st'
  | [], st, st', _, hst, h => by
      simp only [jsFoldExc] at h
      cases h
      exact hst
  | x :: xs, st, st', hf, hst, h => by
      rw [jsFoldExc_cons] at h
      rcases bind_ok h with ⟨st1, h1, h2⟩
      exact jsFoldExc_inv (fun s a s' ha => hf s a s' (by simp [ha]))
        (hf st x st1 (by simp) hst h1) h2

/-- Pointwise characterization of a successful `jsMapExc`. -/
lemma jsMapExc_forall₂ {α β : Type} {f : α → Except JsErr β} :
    ∀ {l : List α} {ys : List β}, jsMapExc f l = .ok ys →
      List.Forall₂ (fun x y => f x = .ok y) l ys
  | [], ys, h => by
      simp only [jsMapExc] at h
      cases h
      exact List.Forall₂.nil
  | x :: xs, ys, h => by
      simp only [jsMapExc] at h
      rcases bind_ok h with ⟨y, hy, h2⟩
      rcases bind_ok h2 with ⟨ys', hys', h3⟩
      simp only [pure, Except.pure, Except.ok.injEq] at h3
      subst h3
      exact List.Forall₂.cons hy (jsMapExc_forall₂ hys')

@[simp] lemma ok_bind {α β : Type} (a : α) (f : α → Except JsErr β) :
    (Except.ok a >>= f) = f a := rfl

@[simp] lemma pure_eq_ok {α : Type} (a : α) : (pure a : Except JsErr α) = Except.ok a := rfl

/-- Elements of a successful `jsFilterExc` result come from the input. -/
lemma jsFilterExc_subset {p : JVal → Except JsErr Bool} :
    ∀ {l ys : List JVal}, jsFilterExc p l = .ok ys → ∀ y ∈ ys, y ∈ l
  | [], ys, h => by
      simp only [jsFilterExc] at h
      cases h
      simp
  | x :: xs, ys, h => by
      simp only [jsFilterExc] at h
      rcases bind_ok h with ⟨b, _, h2⟩
      rcases bind_ok h2 with ⟨rest, hrest, h3⟩
      simp only [pure_eq_ok, Except.ok.injEq] at h3
      intro y hy
      rw [← h3] at hy
      have hmem : y ∈ x :: rest := by
        by_cases hb : b = true
        · simpa [hb] using hy
        · simp only [Bool.not_eq_true] at hb
          simp only [hb, Bool.false_eq_true, if_false] at hy
          exact List.mem_cons_of_mem x hy
      rcases List.mem_cons.1 hmem with hEq | hmem2
      · simp [hEq]
      · exact List.mem_cons_of_mem x (jsFilterExc_subset hrest y hmem2)

/-- Every element a successful `jsFilterExc` keeps was accepted by the
predicate. -/
lemma jsFilterExc_pred {p : JVal → Except JsErr Bool} :
    ∀ {l ys : List JVal}, jsFilterExc p l = .ok ys → ∀ y ∈ ys, p y = .ok true
  | [], ys, h => by
      simp only [jsFilterExc] at h
      cases h
      simp
  | x :: xs, ys, h => by
      simp only [jsFilterExc] at h
      rcases bind_ok h with ⟨b, hb0, h2⟩
      rcases bind_ok h2 with ⟨rest, hrest, h3⟩
      simp only [pure_eq_ok, Except.ok.injEq] at h3
      intro y hy
      rw [← h3] at hy
      by_cases hb : b = true
      · simp only [hb, if_true] at hy
        rcases List.mem_cons.1 hy with hEq | hmem2
        · rw [hEq]
          rw [← hb]
          exact hb0
        · exact jsFilterExc_pred hrest y hmem2
      · simp only [Bool.not_eq_true] at hb
        simp only [hb, Bool.false_eq_true, if_false] at hy
        exact jsFilterExc_pred hrest y hy

/-! ## Basic facts about property reads -/

/-- A value on which a property read cannot throw. -/
def nonNullish : JVal → Prop
  | .undefined => False
  | .null => False
  | _ => True

lemma getProp_ok {v : JVal} (k : String) (h : nonNullish v) :
    ∃ w, getProp v k = .ok w := by
  cases v <;> simp [nonNullish] at h ⊢ <;> simp [getProp]

lemma optChain_ok (v : JVal) (k : String) : ∃ w, optChain v k = .ok w := by
  cases v <;> simp [optChain, getProp]

lemma nonNullish_jsOr (a b : JVal) (hb : nonNullish b) : nonNullish (jsOr a b) := by
  unfold jsOr
  split
  · rename_i h
    cases a <;> simp_all [truthy, nonNullish]
  · exact hb

/-- Elements accepted by the `isActive` filter are non-nullish. -/
lemma filterActive_nonNullish {emps active : List JVal}
    (h : filterActive emps = .ok active) : ∀ e ∈ active, nonNullish e := by
  intro e he
  have hp := jsFilterExc_pred h e he
  rcases bind_ok hp with ⟨a, ha, _⟩
  cases e <;> simp [getProp] at ha <;> trivial

/-- A successful `mkPersonNode` yields a person node whose id is
`person:` followed by the coerced `name`. -/
lemma mkPersonNode_ok {emp : JVal} (h : nonNullish emp) :
    ∃ nm node, getProp emp "name" = .ok nm ∧ mkPersonNode emp = .ok node ∧
      node.id = "person:" ++ jsToString nm ∧ node.isPerson = true := by
  rcases getProp_ok "name" h with ⟨nm, hnm⟩
  rcases getProp_ok "job" h with ⟨jb, hjb⟩
  rcases getProp_ok "overall_summary" h with ⟨sm, hsm⟩
  rcases getProp_ok "personality_traits" h with ⟨pt, hpt⟩
  have hnn : nonNullish (jsOr pt (.obj [])) := nonNullish_jsOr _ _ trivial
  have hscore : ∀ t : String, ∃ w, personalityScore (jsOr pt (.obj [])) t = .ok w := by
    intro t
    rcases getProp_ok t hnn with ⟨tv, htv⟩
    rcases optChain_ok tv "score" with ⟨sv, hsv⟩
    exact ⟨jsOr sv (.num 0), by simp [personalityScore, htv, hsv]⟩
  rcases hscore "openness" with ⟨vo, ho⟩
  rcases hscore "conscientiousness" with ⟨vc, hc⟩
  rcases hscore "extraversion" with ⟨ve, he⟩
  rcases hscore "agreeableness" with ⟨va, ha⟩
  rcases hscore "neuroticism" with ⟨vn, hn⟩
  refine ⟨nm, Node.person ("person:" ++ jsToString nm) nm jb (jsOr sm (.str ""))
    ⟨vo, vc, ve, va, vn⟩, hnm, ?_, rfl, rfl⟩
  simp [mkPersonNode, hnm, hjb, hsm, hpt, ho, hc, he, ha, hn]

/-! ## The Phase-1 loop invariant -/

/-- The four dimension edge types. -/
def dimEdgeTypes : List String := ["HAS_SKILL", "VALUES", "INTERESTED_IN", "MOTIVATED_BY"]

/-- Per-node part of the Phase-1 invariant: an attribute node has
duplicate-free categories, `SameValueZero`-duplicate-free connected people,
and an id that is `attr:` followed by the slug of its label. -/
def attrNodeOk (n : Node) : Prop :=
  match n with
  | .person _ _ _ _ _ => True
  | .attr i lb cats _ people =>
      cats.Nodup ∧ people.Pairwise (fun a b => svz a b = false) ∧
      ∃ s, normalizeForIdJ lb = .ok s ∧ i = "attr:" ++ s

/-- The invariant maintained by the Phase-1 attribute loops over the
mutable state. -/
structure AttrInv (active : List JVal) (st : BuildState) : Prop where
  ids_eq : st.nodeIds = st.nodes.map Node.id
  person_present : ∀ emp ∈ active, ∀ nm, getProp emp "name" = .ok nm →
      ("person:" ++ jsToString nm) ∈ st.nodes.map Node.id
  attr_ids_nodup : ((st.nodes.filter (fun n => !n.isPerson)).map Node.id).Nodup
  person_count : (st.nodes.filter (fun n => n.isPerson)).length = active.length
  nodes_ok : ∀ n ∈ st.nodes, attrNodeOk n
  edges_shape : ∀ e ∈ st.edges, e.weight = .num 1 ∧ e.type ∈ dimEdgeTypes ∧
      e.shared = none ∧ e.direction = none ∧ e.reason = none ∧
      e.ai_generated = false
  edges_key : ∀ e ∈ st.edges, ∃ nm : String, e.source = "person:" ++ nm ∧
      (nm ++ "->" ++ e.target) ∈ st.edgeKeys
  edges_pair_nodup : st.edges.Pairwise
      (fun e1 e2 => ¬(e1.source = e2.source ∧ e1.target = e2.target))
  edges_endpoints : ∀ e ∈ st.edges, e.source ∈ st.nodes.map Node.id ∧
      e.target ∈ st.nodes.map Node.id

lemma string_append_cancel {p a b : String} (h : p ++ a = p ++ b) : a = b := by
  have h2 : (p ++ a).data = (p ++ b).data := by rw [h]
  simp only [String.data_append] at h2
  exact String.ext (List.append_cancel_left h2)

lemma updateFirstNode_map_id (i : String) (f : Node → Node) (l : List Node)
    (hid : ∀ n, (f n).id = n.id) :
    (updateFirstNode i f l).map Node.id = l.map Node.id := by
  induction l with
  | nil => rfl
  | cons n ns ih =>
      unfold updateFirstNode
      split
      · simp [hid n]
      · simp [ih]

lemma updateFirstNode_filter_map (i : String) (f : Node → Node) (l : List Node)
    (hid : ∀ n, (f n).id = n.id)
    (g : Node → Bool) (hg : ∀ n, g (f n) = g n) :
    ((updateFirstNode i f l).filter g).map Node.id = (l.filter g).map Node.id := by
  induction l with
  | nil => rfl
  | cons n ns ih =>
      unfold updateFirstNode
      split
      · by_cases hgn : g n = true
        · simp [List.filter_cons, hg n, hgn, hid n]
        · simp only [Bool.not_eq_true] at hgn
          simp [List.filter_cons, hg n, hgn]
      · by_cases hgn : g n = true
        · simp [List.filter_cons, hgn, ih]
        · simp only [Bool.not_eq_true] at hgn
          simp [List.filter_cons, hgn, ih]

lemma updateFirstNode_filter_length (i : String) (f : Node → Node) (l : List Node)
    (g : Node → Bool) (hg : ∀ n, g (f n) = g n) :
    ((updateFirstNode i f l).filter g).length = (l.filter g).length := by
  induction l with
  | nil => rfl
  | cons n ns ih =>
      unfold updateFirstNode
      split
      · by_cases hgn : g n = true
        · simp [List.filter_cons, hg n, hgn]
        · simp only [Bool.not_eq_true] at hgn
          simp [List.filter_cons, hg n, hgn]
      · by_cases hgn : g n = true
        · simp [List.filter_cons, hgn, ih]
        · simp only [Bool.not_eq_true] at hgn
          simp [List.filter_cons, hgn, ih]

lemma updateFirstNode_forall {Q : Node → Prop} (i : String) (f : Node → Node)
    (l : List Node) (hf : ∀ n ∈ l, Q n → Q (f n)) (h : ∀ n ∈ l, Q n) :
    ∀ n ∈ updateFirstNode i f l, Q n := by
  induction l with
  | nil => simp [updateFirstNode]
  | cons n ns ih =>
      unfold updateFirstNode
      split
      · intro m hm
        rcases List.mem_cons.1 hm with hEq | hmem
        · rw [hEq]
          exact hf n (by simp) (h n (by simp))
        · exact h m (by simp [hmem])
      · intro m hm
        rcases List.mem_cons.1 hm with hEq | hmem
        · rw [hEq]
          exact h n (by simp)
        · exact ih (fun x hx hQ => hf x (by simp [hx]) hQ)
            (fun x hx => h x (by simp [hx])) m hmem

@[simp] lemma Node_id_attr (i : String) (lb : JVal) (cats : List String)
    (col : String) (people : List JVal) :
    (Node.attr i lb cats col people).id = i := rfl

@[simp] lemma Node_isPerson_attr (i : String) (lb : JVal) (cats : List String)
    (col : String) (people : List JVal) :
    (Node.attr i lb cats col people).isPerson = false := rfl

@[simp] lemma Node_id_person (i : String) (lb jb sm : JVal) (p : Personality) :
    (Node.person i lb jb sm p).id = i := rfl

@[simp] lemma Node_isPerson_person (i : String) (lb jb sm : JVal) (p : Personality) :
    (Node.person i lb jb sm p).isPerson = true := rfl

lemma contains_false_not_mem {l : List String} {a : String}
    (h : l.contains a = false) : a ∉ l := by
  intro hmem
  have h2 : l.contains a = true := List.elem_iff.2 hmem
  rw [h] at h2
  exact Bool.false_ne_true h2

lemma attrNodeUpd_id (tag : String) (empName : JVal) (n : Node) :
    (attrNodeUpd tag empName n).id = n.id := by
  cases n <;> rfl

lemma attrNodeUpd_isPerson (tag : String) (empName : JVal) (n : Node) :
    (attrNodeUpd tag empName n).isPerson = n.isPerson := by
  cases n <;> rfl

lemma attrNodeUpd_ok (tag : String) (empName : JVal) (n : Node)
    (h : attrNodeOk n) : attrNodeOk (attrNodeUpd tag empName n) := by
  cases n with
  | person _ _ _ _ _ => exact h
  | attr i lb cats col people =>
      rcases h with ⟨hcats, hpeople, hslug⟩
      refine ⟨?_, ?_, hslug⟩
      · split
        · exact hcats
        · rename_i hc
          rw [Bool.not_eq_true] at hc
          rw [List.nodup_append]
          refine ⟨hcats, by simp, ?_⟩
          intro a ha hb
          simp only [List.mem_singleton] at hb
          exact contains_false_not_mem hc (hb ▸ ha)
      · split
        · exact hpeople
        · rename_i hp
          rw [Bool.not_eq_true] at hp
          rw [List.pairwise_append]
          refine ⟨hpeople, by simp, ?_⟩
          intro a ha b hb
          simp only [List.mem_singleton] at hb
          rw [hb]
          by_contra hne
          simp only [Bool.not_eq_false] at hne
          have hany : people.any (fun w => svz w empName) = true :=
            List.any_eq_true.2 ⟨a, ha, hne⟩
          rw [hp] at hany
          exact Bool.false_ne_true hany

lemma person_isPerson_attrNodeOk (n : Node) (h : n.isPerson = true) : attrNodeOk n := by
  cases n with
  | person _ _ _ _ _ => trivial
  | attr _ _ _ _ _ => simp at h

/-- Every dimension's edge type is one of the four dimension edge types. -/
lemma attrConfig_edgeTypes : ∀ cfg ∈ attrConfig, cfg.edgeType ∈ dimEdgeTypes := by decide

/-- Invariant preservation: the attribute-node creation step. -/
lemma attrInv_create {active : List JVal} {st : BuildState}
    (hinv : AttrInv active st) (item : JVal) (slug : String) (cfg : AttrCfg)
    (hslug : normalizeForIdJ item = .ok slug)
    (hnc : st.nodeIds.contains ("attr:" ++ slug) = false) :
    AttrInv active { st with
      nodes := st.nodes ++ [.attr ("attr:" ++ slug) item [cfg.tag] cfg.color []],
      nodeIds := st.nodeIds ++ ["attr:" ++ slug] } := by
  have hnotmem : ("attr:" ++ slug) ∉ st.nodes.map Node.id := by
    rw [← hinv.ids_eq]
    exact contains_false_not_mem hnc
  refine ⟨?_, ?_, ?_, ?_, ?_, ?_, ?_, hinv.edges_pair_nodup, ?_⟩
  · simp [hinv.ids_eq]
  · intro emp hemp nm hnm
    simp only [List.map_append]
    exact List.mem_append_left _ (hinv.person_present emp hemp nm hnm)
  · have hsplit : (((st.nodes ++
        [Node.attr ("attr:" ++ slug) item [cfg.tag] cfg.color []]).filter
          (fun n => !n.isPerson)).map Node.id) =
        ((st.nodes.filter (fun n => !n.isPerson)).map Node.id) ++ ["attr:" ++ slug] := by
      simp [List.filter_append]
    show (((st.nodes ++
        [Node.attr ("attr:" ++ slug) item [cfg.tag] cfg.color []]).filter
          (fun n => !n.isPerson)).map Node.id).Nodup
    rw [hsplit, List.nodup_append]
    refine ⟨hinv.attr_ids_nodup, by simp, ?_⟩
    intro a ha hb
    simp only [List.mem_singleton] at hb
    subst hb
    apply hnotmem
    rcases List.mem_map.1 ha with ⟨n, hn, hid⟩
    exact hid ▸ List.mem_map_of_mem Node.id (List.mem_of_mem_filter hn)
  · show ((st.nodes ++
        [Node.attr ("attr:" ++ slug) item [cfg.tag] cfg.color []]).filter
          (fun n => n.isPerson)).length = active.length
    simp [List.filter_append, hinv.person_count]
  · intro n hn
    rcases List.mem_append.1 hn with hmem | hmem
    · exact hinv.nodes_ok n hmem
    · simp only [List.mem_singleton] at hmem
      subst hmem
      exact ⟨by simp, by simp, slug, hslug, rfl⟩
  · exact hinv.edges_shape
  · exact hinv.edges_key
  · intro e he
    rcases hinv.edges_endpoints e he with ⟨h1, h2⟩
    simp only [List.map_append]
    exact ⟨List.mem_append_left _ h1, List.mem_append_left _ h2⟩

/-- Invariant preservation: the category/membership union step. -/
lemma attrInv_update {active : List JVal} {st : BuildState}
    (hinv : AttrInv active st) (nodeId : String) (tag : String) (empName : JVal) :
    AttrInv active { st with
      nodes := updateFirstNode nodeId (attrNodeUpd tag empName) st.nodes } := by
  have hmap := updateFirstNode_map_id nodeId (attrNodeUpd tag empName) st.nodes
    (attrNodeUpd_id tag empName)
  refine ⟨?_, ?_, ?_, ?_, ?_, hinv.edges_shape, hinv.edges_key,
    hinv.edges_pair_nodup, ?_⟩
  · show st.nodeIds =
      (updateFirstNode nodeId (attrNodeUpd tag empName) st.nodes).map Node.id
    rw [hmap]
    exact hinv.ids_eq
  · intro emp hemp nm hnm
    show ("person:" ++ jsToString nm) ∈
      (updateFirstNode nodeId (attrNodeUpd tag empName) st.nodes).map Node.id
    rw [hmap]
    exact hinv.person_present emp hemp nm hnm
  · show (((updateFirstNode nodeId (attrNodeUpd tag empName) st.nodes).filter
        (fun n => !n.isPerson)).map Node.id).Nodup
    rw [updateFirstNode_filter_map nodeId _ st.nodes (attrNodeUpd_id tag empName)
      _ (fun n => by rw [attrNodeUpd_isPerson])]
    exact hinv.attr_ids_nodup
  · show ((updateFirstNode nodeId (attrNodeUpd tag empName) st.nodes).filter
        (fun n => n.isPerson)).length = active.length
    rw [updateFirstNode_filter_length nodeId _ st.nodes
      _ (fun n => by rw [attrNodeUpd_isPerson])]
    exact hinv.person_count
  · exact updateFirstNode_forall nodeId _ st.nodes
      (fun n _ h => attrNodeUpd_ok tag empName n h) hinv.nodes_ok
  · intro e he
    rcases hinv.edges_endpoints e he with ⟨h1, h2⟩
    constructor
    · show e.source ∈
        (updateFirstNode nodeId (attrNodeUpd tag empName) st.nodes).map Node.id
      rw [hmap]
      exact h1
    · show e.target ∈
        (updateFirstNode nodeId (attrNodeUpd tag empName) st.nodes).map Node.id
      rw [hmap]
      exact h2

/-- Invariant preservation: the dimension-edge push step. -/
lemma attrInv_push {active : List JVal} {st : BuildState}
    (hinv : AttrInv active st) {emp empName : JVal} (hemp : emp ∈ active)
    (hname : getProp emp "name" = .ok empName) (nodeId : String) (cfg : AttrCfg)
    (hcfg : cfg ∈ attrConfig)
    (htarget : nodeId ∈ st.nodes.map Node.id)
    (hnk : st.edgeKeys.contains (jsToString empName ++ "->" ++ nodeId) = false) :
    AttrInv active { st with
      edges := st.edges ++ [{ source := "person:" ++ jsToString empName,
                              target := nodeId, type := cfg.edgeType,
                              weight := .num 1 }],
      edgeKeys := st.edgeKeys ++ [jsToString empName ++ "->" ++ nodeId] } := by
  refine ⟨hinv.ids_eq, hinv.person_present, hinv.attr_ids_nodup,
    hinv.person_count, hinv.nodes_ok, ?_, ?_, ?_, ?_⟩
  · intro e he
    rcases List.mem_append.1 he with hmem | hmem
    · exact hinv.edges_shape e hmem
    · simp only [List.mem_singleton] at hmem
      subst hmem
      exact ⟨rfl, attrConfig_edgeTypes cfg hcfg, rfl, rfl, rfl, rfl⟩
  · intro e he
    rcases List.mem_append.1 he with hmem | hmem
    · rcases hinv.edges_key e hmem with ⟨nm, hs, hk⟩
      exact ⟨nm, hs, List.mem_append_left _ hk⟩
    · simp only [List.mem_singleton] at hmem
      subst hmem
      exact ⟨jsToString empName, rfl, by simp⟩
  · rw [List.pairwise_append]
    refine ⟨hinv.edges_pair_nodup, by simp, ?_⟩
    intro e1 h1 e2 h2
    simp only [List.mem_singleton] at h2
    subst h2
    rintro ⟨hs, ht⟩
    rcases hinv.edges_key e1 h1 with ⟨nm, hsrc, hkey⟩
    rw [hsrc] at hs
    have hnm : nm = jsToString empName := string_append_cancel hs
    rw [hnm] at hkey
    simp only at ht
    rw [ht] at hkey
    exact contains_false_not_mem hnk hkey
  · intro e he
    rcases List.mem_append.1 he with hmem | hmem
    · exact hinv.edges_endpoints e hmem
    · simp only [List.mem_singleton] at hmem
      subst hmem
      exact ⟨hinv.person_present emp hemp empName hname, htarget⟩

/-- `processItem` preserves the Phase-1 invariant. -/
lemma processItem_inv {active : List JVal} {cfg : AttrCfg} {emp item : JVal}
    {st st' : BuildState} (hemp : emp ∈ active) (hcfg : cfg ∈ attrConfig)
    (hinv : AttrInv active st)
    (h : processItem cfg emp st item = .ok st') : AttrInv active st' := by
  unfold processItem at h
  rcases bind_ok h with ⟨slug, hslug, h⟩
  rcases bind_ok h with ⟨empName, hname, h⟩
  -- the state after the creation step
  set st1 := if st.nodeIds.contains ("attr:" ++ slug) then st
    else { st with
      nodes := st.nodes ++ [.attr ("attr:" ++ slug) item [cfg.tag] cfg.color []],
      nodeIds := st.nodeIds ++ ["attr:" ++ slug] } with hst1
  have hinv1 : AttrInv active st1 := by
    rw [hst1]
    split
    · exact hinv
    · rename_i hnc
      rw [Bool.not_eq_true] at hnc
      exact attrInv_create hinv item slug cfg hslug hnc
  have hmem1 : ("attr:" ++ slug) ∈ st1.nodes.map Node.id := by
    rw [hst1]
    split
    · rename_i hc
      rw [← hinv.ids_eq]
      exact List.elem_iff.1 hc
    · simp
  -- the state after the union step
  set st2 := { st1 with
    nodes := updateFirstNode ("attr:" ++ slug) (attrNodeUpd cfg.tag empName) st1.nodes }
    with hst2
  have hinv2 : AttrInv active st2 := attrInv_update hinv1 _ cfg.tag empName
  have hmem2 : ("attr:" ++ slug) ∈ st2.nodes.map Node.id := by
    rw [hst2]
    show ("attr:" ++ slug) ∈
      (updateFirstNode ("attr:" ++ slug) (attrNodeUpd cfg.tag empName) st1.nodes).map Node.id
    rw [updateFirstNode_map_id _ _ _ (attrNodeUpd_id cfg.tag empName)]
    exact hmem1
  -- the final edge-push step
  by_cases hk : st2.edgeKeys.contains (jsToString empName ++ "->" ++ ("attr:" ++ slug)) = true
  · rw [if_pos hk] at h
    simp only [pure_eq_ok, Except.ok.injEq] at h
    rw [← h]
    exact hinv2
  · rw [Bool.not_eq_true] at hk
    rw [if_neg (by rw [hk]; exact Bool.false_ne_true)] at h
    simp only [pure_eq_ok, Except.ok.injEq] at h
    rw [← h]
    exact attrInv_push hinv2 hemp hname _ cfg hcfg hmem2 hk

/-- `processEmpAttr` preserves the Phase-1 invariant. -/
lemma processEmpAttr_inv {active : List JVal} {cfg : AttrCfg} {emp : JVal}
    {st st' : BuildState} (hemp : emp ∈ active) (hcfg : cfg ∈ attrConfig)
    (hinv : AttrInv active st)
    (h : processEmpAttr cfg st emp = .ok st') : AttrInv active st' := by
  unfold processEmpAttr at h
  rcases bind_ok h with ⟨fieldData, _, h⟩
  by_cases ht : truthy fieldData = true
  · rw [if_neg (by simp [ht])] at h
    rcases bind_ok h with ⟨raw, _, h⟩
    rcases bind_ok h with ⟨items, _, h⟩
    exact jsFoldExc_inv
      (fun s a s' _ hs hstep => processItem_inv hemp hcfg hs hstep) hinv h
  · rw [Bool.not_eq_true] at ht
    rw [if_pos (by simp [ht])] at h
    simp only [pure_eq_ok, Except.ok.injEq] at h
    rw [← h]
    exact hinv

lemma forall₂_mem_left {α β : Type} {R : α → β → Prop} :
    ∀ {l : List α} {ys : List β}, List.Forall₂ R l ys →
      ∀ x ∈ l, ∃ y ∈ ys, R x y := by
  intro l ys h
  induction h with
  | nil => simp
  | cons hR _ ih =>
      intro x hx
      rcases List.mem_cons.1 hx with hEq | hmem
      · subst hEq
        exact ⟨_, by simp, hR⟩
      · rcases ih x hmem with ⟨y, hy, hxy⟩
        exact ⟨y, by simp [hy], hxy⟩

lemma forall₂_length {α β : Type} {R : α → β → Prop} :
    ∀ {l : List α} {ys : List β}, List.Forall₂ R l ys → l.length = ys.length := by
  intro l ys h
  induction h with
  | nil => rfl
  | cons _ _ ih => simpa using ih

lemma forall₂_mem_right {α β : Type} {R : α → β → Prop} :
    ∀ {l : List α} {ys : List β}, List.Forall₂ R l ys →
      ∀ y ∈ ys, ∃ x ∈ l, R x y := by
  intro l ys h
  induction h with
  | nil => simp
  | cons hR _ ih =>
      intro y hy
      rcases List.mem_cons.1 hy with hEq | hmem
      · subst hEq
        exact ⟨_, by simp, hR⟩
      · rcases ih y hmem with ⟨x, hx, hxy⟩
        exact ⟨x, by simp [hx], hxy⟩

/-- The initial state of the attribute loops satisfies the invariant. -/
lemma attrInv_init {emps active : List JVal} {personNodes : List Node}
    (hact : filterActive emps = .ok active)
    (hmap : jsMapExc mkPersonNode active = .ok personNodes) :
    AttrInv active ⟨personNodes, [], personNodes.map Node.id, []⟩ := by
  have hf2 := jsMapExc_forall₂ hmap
  have hperson : ∀ node ∈ personNodes, node.isPerson = true := by
    intro node hnode
    rcases forall₂_mem_right hf2 node hnode with ⟨emp, hemp, hmk⟩
    rcases mkPersonNode_ok (filterActive_nonNullish hact emp hemp) with
      ⟨nm, nd, hnm, hmk2, hid, hip⟩
    rw [hmk] at hmk2
    injection hmk2 with hx
    subst hx
    exact hip
  refine ⟨rfl, ?_, ?_, ?_, ?_, by simp, by simp, by simp, by simp⟩
  · intro emp hemp nm hnm
    rcases forall₂_mem_left hf2 emp hemp with ⟨node, hnode, hmk⟩
    rcases mkPersonNode_ok (filterActive_nonNullish hact emp hemp) with
      ⟨nm2, nd, hnm2, hmk2, hid, hip⟩
    rw [hnm] at hnm2
    injection hnm2 with hx
    subst hx
    rw [hmk] at hmk2
    injection hmk2 with hy
    subst hy
    exact hid ▸ List.mem_map_of_mem Node.id hnode
  · have hnil : personNodes.filter (fun n => !n.isPerson) = [] := by
      rw [List.filter_eq_nil_iff]
      intro n hn
      simp [hperson n hn]
    show ((personNodes.filter (fun n => !n.isPerson)).map Node.id).Nodup
    rw [hnil]
    simp
  · have hall : personNodes.filter (fun n => n.isPerson) = personNodes := by
      rw [List.filter_eq_self]
      exact hperson
    show (personNodes.filter (fun n => n.isPerson)).length = active.length
    rw [hall, ← forall₂_length hf2]
  · intro n hn
    exact person_isPerson_attrNodeOk n (hperson n hn)

/-- Decomposition of a successful `buildMechanicalGraph` run. -/
lemma build_split {emps : List JVal} {g : Graph}
    (h : buildMechanicalGraph emps = .ok g) :
    ∃ active personNodes st shares,
      filterActive emps = .ok active ∧
      jsMapExc mkPersonNode active = .ok personNodes ∧
      jsFoldExc (fun st cfg => jsFoldExc (processEmpAttr cfg) st active)
        ⟨personNodes, [], personNodes.map Node.id, []⟩ attrConfig = .ok st ∧
      sharesEdges active = .ok shares ∧
      g = ⟨st.nodes, st.edges ++ shares⟩ := by
  unfold buildMechanicalGraph at h
  rcases bind_ok h with ⟨active, ha, h⟩
  rcases bind_ok h with ⟨personNodes, hp, h⟩
  rcases bind_ok h with ⟨st, hst, h⟩
  rcases bind_ok h with ⟨shares, hsh, h⟩
  simp only [pure_eq_ok, Except.ok.injEq] at h
  exact ⟨active, personNodes, st, shares, ha, hp, hst, hsh, h.symm⟩

/-- The invariant holds of the state reached after the attribute phase. -/
lemma build_attrInv {emps : List JVal} {g : Graph}
    (h : buildMechanicalGraph emps = .ok g) :
    ∃ active st shares,
      filterActive emps = .ok active ∧ AttrInv active st ∧
      sharesEdges active = .ok shares ∧
      g.nodes = st.nodes ∧ g.edges = st.edges ++ shares := by
  rcases build_split h with ⟨active, personNodes, st, shares, ha, hp, hst, hsh, hg⟩
  have hinv0 := attrInv_init ha hp
  have hinv : AttrInv active st := by
    refine jsFoldExc_inv ?_ hinv0 hst
    intro s cfg s2 hcfg hs hstep
    exact jsFoldExc_inv
      (fun s3 emp s4 hemp hs3 hstep2 => processEmpAttr_inv hemp hcfg hs3 hstep2)
      hs hstep
  exact ⟨active, st, shares, ha, hinv, hsh, by rw [hg], by rw [hg]⟩

/-! ## Lemmas about Phase 2 and `main` -/

/-- Phase 2 passes the graph through unchanged when skipped. -/
lemma enhanceWithAI_skip {env : AIEnv} {graph : Graph} {emps : List JVal}
    (h : env.skipAI = true ∨ envTruthy env.apiKey = false ∨
      envTruthy env.projectId = false) :
    enhanceWithAI env graph emps = .ok graph := by
  unfold enhanceWithAI
  rcases h with h | h | h
  · rw [if_pos h]
  · rw [h]
    by_cases hs : env.skipAI = true
    · rw [if_pos hs]
    · rw [Bool.not_eq_true] at hs
      rw [hs]
      simp
  · rw [h]
    by_cases hs : env.skipAI = true
    · rw [if_pos hs]
    · rw [Bool.not_eq_true] at hs
      rw [hs]
      simp

/-- With credentials present and the flag unset, Phase 2 appends exactly the
per-batch contributions, one per batch index. -/
lemma enhanceWithAI_run (env : AIEnv) (graph : Graph) {emps active : List JVal}
    (hskip : env.skipAI = false) (hkey : envTruthy env.apiKey = true)
    (hproj : envTruthy env.projectId = true)
    (hact : filterActive emps = .ok active) :
    enhanceWithAI env graph emps = .ok { graph with edges := graph.edges ++
      ((List.range (chunksOf5 (ijElemPairs active)).length).map
        (fun k => batchContrib (env.outcomes k))).flatten } := by
  unfold enhanceWithAI
  rw [hskip, hkey, hproj]
  simp only [Bool.false_eq_true, if_false, Bool.and_self, Bool.not_true]
  rw [hact]
  simp

/-- Decomposition of a successful `mainOutput` run. -/
lemma mainOutput_split {env : AIEnv} {emps : List JVal} {out : Output}
    (h : mainOutput env emps = .ok out) :
    ∃ g1 g2 active, buildMechanicalGraph emps = .ok g1 ∧
      enhanceWithAI env g1 emps = .ok g2 ∧
      filterActive emps = .ok active ∧
      out = ⟨⟨"employees.json", active.length, g2.nodes.length, g2.edges.length,
        !env.skipAI && (envTruthy env.apiKey && envTruthy env.projectId)⟩,
        g2.nodes, g2.edges⟩ := by
  unfold mainOutput at h
  rcases bind_ok h with ⟨g1, h1, h⟩
  rcases bind_ok h with ⟨g2, h2, h⟩
  rcases bind_ok h with ⟨active, h3, h⟩
  simp only [pure_eq_ok, Except.ok.injEq] at h
  exact ⟨g1, g2, active, h1, h2, h3, h.symm⟩

/-! ## Lemmas about the `SHARES` phase -/

/-- Characterization of one `sharesForPair` run. -/
lemma sharesForPair_spec {a b : JVal} {es : List Edge}
    (h : sharesForPair a b = .ok es) :
    ∃ aSk bSk aVl bVl aIn bIn,
      getAttrs a "work_styles_and_strengths" "dominant_strengths" = .ok aSk ∧
      getAttrs b "work_styles_and_strengths" "dominant_strengths" = .ok bSk ∧
      getAttrs a "values_and_motivators" "core_values" = .ok aVl ∧
      getAttrs b "values_and_motivators" "core_values" = .ok bVl ∧
      getAttrs a "current_state" "recent_topics_of_interest" = .ok aIn ∧
      getAttrs b "current_state" "recent_topics_of_interest" = .ok bIn ∧
      ((0 < sharedWeightOf aSk bSk aVl bVl aIn bIn →
        ∃ aName bName, getProp a "name" = .ok aName ∧ getProp b "name" = .ok bName ∧
          es = [mkSharesEdge aName bName aSk bSk aVl bVl aIn bIn]) ∧
       (sharedWeightOf aSk bSk aVl bVl aIn bIn = 0 → es = [])) := by
  unfold sharesForPair at h
  rcases bind_ok h with ⟨aSk, h1, h⟩
  rcases bind_ok h with ⟨bSk, h2, h⟩
  rcases bind_ok h with ⟨aVl, h3, h⟩
  rcases bind_ok h with ⟨bVl, h4, h⟩
  rcases bind_ok h with ⟨aIn, h5, h⟩
  rcases bind_ok h with ⟨bIn, h6, h⟩
  split at h
  · rename_i hcond
    have hcond2 : 0 < sharedWeightOf aSk bSk aVl bVl aIn bIn := hcond
    rcases bind_ok h with ⟨aName, ha, h⟩
    rcases bind_ok h with ⟨bName, hb, h⟩
    simp only [pure_eq_ok, Except.ok.injEq] at h
    exact ⟨aSk, bSk, aVl, bVl, aIn, bIn, h1, h2, h3, h4, h5, h6,
      fun _ => ⟨aName, bName, ha, hb, h.symm⟩, fun hw => by omega⟩
  · rename_i hcond
    have hcond2 : ¬(0 < sharedWeightOf aSk bSk aVl bVl aIn bIn) := hcond
    simp only [pure_eq_ok, Except.ok.injEq] at h
    exact ⟨aSk, bSk, aVl, bVl, aIn, bIn, h1, h2, h3, h4, h5, h6,
      fun hw => absurd hw hcond2, fun _ => h.symm⟩

/-- Shape of any edge a `sharesForPair` run produces. -/
lemma sharesForPair_shape {a b : JVal} {es : List Edge}
    (h : sharesForPair a b = .ok es) :
    ∀ e ∈ es, e.type = "SHARES" ∧ e.ai_generated = false ∧ e.direction = none ∧
      e.reason = none ∧ (∃ n : Nat, 0 < n ∧ e.weight = .num n) ∧
      ∃ na nb, getProp a "name" = .ok na ∧ getProp b "name" = .ok nb ∧
        e.source = "person:" ++ jsToString na ∧
        e.target = "person:" ++ jsToString nb := by
  intro e he
  rcases sharesForPair_spec h with
    ⟨aSk, bSk, aVl, bVl, aIn, bIn, _, _, _, _, _, _, hpos, hzero⟩
  by_cases hw : 0 < sharedWeightOf aSk bSk aVl bVl aIn bIn
  · rcases hpos hw with ⟨na, nb, hna, hnb, hes⟩
    rw [hes] at he
    simp only [List.mem_singleton] at he
    subst he
    exact ⟨rfl, rfl, rfl, rfl, ⟨sharedWeightOf aSk bSk aVl bVl aIn bIn, hw, rfl⟩,
      na, nb, hna, hnb, rfl, rfl⟩
  · rw [hzero (by omega)] at he
    simp at he

lemma ijElemPairs_mem {α : Type} {l : List α} : ∀ p ∈ ijElemPairs l, p.1 ∈ l ∧ p.2 ∈ l := by
  induction l with
  | nil => simp [ijElemPairs]
  | cons x xs ih =>
      intro p hp
      simp only [ijElemPairs] at hp
      rcases List.mem_append.1 hp with hm | hm
      · rcases List.mem_map.1 hm with ⟨y, hy, hxy⟩
        subst hxy
        exact ⟨by simp, by simp [hy]⟩
      · rcases ih p hm with ⟨hp1, hp2⟩
        exact ⟨by simp [hp1], by simp [hp2]⟩

/-- Every `SHARES` edge comes from one `i<j` pair. -/
lemma sharesEdges_mem {active : List JVal} {shares : List Edge}
    (h : sharesEdges active = .ok shares) :
    ∀ e ∈ shares, ∃ p ∈ ijElemPairs active, ∃ es,
      sharesForPair p.1 p.2 = .ok es ∧ e ∈ es := by
  unfold sharesEdges at h
  rcases bind_ok h with ⟨ess, hess, h2⟩
  simp only [pure_eq_ok, Except.ok.injEq] at h2
  subst h2
  intro e he
  rcases List.mem_flatten.1 he with ⟨es, hes, hee⟩
  rcases forall₂_mem_right (jsMapExc_forall₂ hess) es hes with ⟨p, hp, hfp⟩
  exact ⟨p, hp, es, hfp, hee⟩

/-- All Phase-1 edges are dimension or `SHARES` edges, with no AI fields. -/
lemma build_edge_types {emps : List JVal} {g : Graph}
    (h : buildMechanicalGraph emps = .ok g) :
    ∀ e ∈ g.edges, (e.type ∈ dimEdgeTypes ∨ e.type = "SHARES") ∧
      e.ai_generated = false := by
  rcases build_attrInv h with ⟨active, st, shares, hact, hinv, hsh, hnodes, hedges⟩
  intro e he
  rw [hedges] at he
  rcases List.mem_append.1 he with hmem | hmem
  · rcases hinv.edges_shape e hmem with ⟨_, ht, _, _, _, hai⟩
    exact ⟨Or.inl ht, hai⟩
  · rcases sharesEdges_mem hsh e hmem with ⟨p, hp, es, hes, hee⟩
    rcases sharesForPair_shape hes e hee with ⟨ht, hai, _⟩
    exact ⟨Or.inr ht, hai⟩

/-! ## Success lemmas: well-formed records never make Phase 1 throw -/

lemma jsFoldExc_ok {σ α : Type} {f : σ → α → Except JsErr σ} :
    ∀ (l : List α) (st : σ), (∀ s : σ, ∀ a ∈ l, ∃ s', f s a = .ok s') →
      ∃ st', jsFoldExc f st l = .ok st'
  | [], st, _ => ⟨st, rfl⟩
  | x :: xs, st, h => by
      rcases h st x (by simp) with ⟨s1, hs1⟩
      rcases jsFoldExc_ok xs s1
        (fun s a ha => h s a (by simp [ha])) with ⟨st', hst'⟩
      exact ⟨st', by rw [jsFoldExc_cons, hs1, ok_bind]; exact hst'⟩

lemma jsMapExc_ok {α β : Type} {f : α → Except JsErr β} :
    ∀ {l : List α}, (∀ a ∈ l, ∃ b, f a = .ok b) →
      ∃ ys, jsMapExc f l = .ok ys
  | [], _ => ⟨[], rfl⟩
  | x :: xs, h => by
      rcases h x (by simp) with ⟨y, hy⟩
      rcases jsMapExc_ok (l := xs) (fun a ha => h a (by simp [ha])) with ⟨ys, hys⟩
      exact ⟨y :: ys, by simp only [jsMapExc, hy, ok_bind, hys, pure_eq_ok]⟩

lemma dedupSVZ_subset : ∀ {l : List JVal}, ∀ v ∈ dedupSVZ l, v ∈ l := by
  suffices haux : ∀ (l acc : List JVal),
      ∀ v ∈ l.foldl (fun acc v =>
        if acc.any (fun w => svz w v) then acc else acc ++ [v]) acc,
      v ∈ acc ∨ v ∈ l by
    intro l v hv
    rcases haux l [] v hv with hc | hc
    · simp at hc
    · exact hc
  intro l
  induction l with
  | nil => intro acc v hv; exact Or.inl hv
  | cons x xs ih =>
      intro acc v hv
      simp only [List.foldl_cons] at hv
      rcases ih _ v hv with hc | hc
      · by_cases hx : acc.any (fun w => svz w x) = true
        · rw [if_pos hx] at hc
          exact Or.inl hc
        · rw [Bool.not_eq_true] at hx
          rw [if_neg (by rw [hx]; exact Bool.false_ne_true)] at hc
          rcases List.mem_append.1 hc with hc2 | hc2
          · exact Or.inl hc2
          · simp only [List.mem_singleton] at hc2
            exact Or.inr (by simp [hc2])
      · exact Or.inr (by simp [hc])

lemma getProp_eq_propD {v : JVal} (h : nonNullish v) (k : String) :
    getProp v k = .ok (propD v k) := by
  cases v <;> first | rfl | exact absurd h (by simp [nonNullish])

lemma truthy_nonNullish {v : JVal} (h : truthy v = true) : nonNullish v := by
  cases v
  · exact absurd h (by simp [truthy])
  · exact absurd h (by simp [truthy])
  all_goals trivial

lemma wfRecord_nonNullish {v : JVal} (h : wfRecord v = true) : nonNullish v := by
  cases v
  · exact absurd h (by simp [wfRecord])
  · exact absurd h (by simp [wfRecord])
  all_goals trivial

/-- What well-formedness gives for one dimension of one record. -/
lemma wf_field {emp : JVal} (hw : wfRecord emp = true) {cfg : AttrCfg}
    (hcfg : cfg ∈ attrConfig) :
    truthy (propD emp cfg.field) = false ∨
      wfList (propD (propD emp cfg.field) cfg.subField) = true := by
  have hnn := wfRecord_nonNullish hw
  have hall : attrConfig.all (fun cfg =>
      let fd := propD emp cfg.field
      !truthy fd || wfList (propD fd cfg.subField)) = true := by
    cases emp with
    | undefined => exact absurd hw (by simp [wfRecord])
    | null => exact absurd hw (by simp [wfRecord])
    | bool b => exact hw
    | num n => exact hw
    | str s => exact hw
    | arr elems => exact hw
    | obj fields => exact hw
    | proto p => exact hw
  rw [List.all_eq_true] at hall
  have hc := hall cfg hcfg
  simp only [Bool.or_eq_true, Bool.not_eq_true'] at hc
  exact hc

lemma ite_ok {σ : Type} {c : Prop} [Decidable c] (a b : σ) :
    ∃ x, (if c then (pure a : Except JsErr σ) else pure b) = .ok x := by
  by_cases h : c
  · exact ⟨a, by rw [if_pos h]; rfl⟩
  · exact ⟨b, by rw [if_neg h]; rfl⟩

lemma processItem_ok {cfg : AttrCfg} {emp : JVal} (st : BuildState) {item : JVal}
    (hemp : nonNullish emp) (hitem : ∃ s, normalizeForIdJ item = .ok s) :
    ∃ st', processItem cfg emp st item = .ok st' := by
  rcases hitem with ⟨slug, hslug⟩
  rcases getProp_ok (v := emp) "name" hemp with ⟨nm, hnm⟩
  unfold processItem
  simp only [hslug, ok_bind, hnm]
  exact ite_ok _ _

lemma processEmpAttr_ok {cfg : AttrCfg} (st : BuildState) {emp : JVal}
    (hcfg : cfg ∈ attrConfig) (hw : wfRecord emp = true) :
    ∃ st', processEmpAttr cfg st emp = .ok st' := by
  have hnn := wfRecord_nonNullish hw
  unfold processEmpAttr
  rw [getProp_eq_propD hnn cfg.field, ok_bind]
  by_cases ht : truthy (propD emp cfg.field) = true
  · rw [if_neg (by simp [ht])]
    rw [getProp_eq_propD (truthy_nonNullish ht) cfg.subField, ok_bind]
    rcases wf_field hw hcfg with hfal | hwl
    · rw [ht] at hfal
      exact absurd hfal (by simp)
    · generalize hgen : propD (propD emp cfg.field) cfg.subField = raw at hwl ⊢
      cases raw with
      | arr elems =>
          have hstr : ∀ e ∈ elems, ∃ s : String, e = .str s ∧ labelSafe s = true := by
            intro e he
            simp only [wfList] at hwl
            rw [List.all_eq_true] at hwl
            have := hwl e he
            cases e <;> simp_all
          have hor : jsOr (.arr elems) (.arr []) = .arr elems := by
            simp [jsOr, truthy]
          rw [hor]
          simp only [asArray, ok_bind]
          apply jsFoldExc_ok
          intro s a ha
          apply processItem_ok s hnn
          rcases List.mem_map.1 (dedupSVZ_subset a ha) with ⟨e, he, heq⟩
          rcases hstr e he with ⟨s2, hs2, hsafe⟩
          subst hs2
          rw [← heq]
          exact normalizeForIdJ_of_safe hsafe
      | undefined =>
          have hor : jsOr JVal.undefined (.arr []) = .arr [] := by simp [jsOr, truthy]
          rw [hor]
          simp only [asArray, ok_bind]
          exact ⟨st, rfl⟩
      | null =>
          have hor : jsOr JVal.null (.arr []) = .arr [] := by simp [jsOr, truthy]
          rw [hor]
          simp only [asArray, ok_bind]
          exact ⟨st, rfl⟩
      | bool b =>
          have hb : b = false := by
            by_contra hb
            simp [wfList, truthy, hb] at hwl
          subst hb
          have hor : jsOr (JVal.bool false) (.arr []) = .arr [] := by
            simp [jsOr, truthy]
          rw [hor]
          simp only [asArray, ok_bind]
          exact ⟨st, rfl⟩
      | num n =>
          have hn : n = 0 := by
            by_contra hn
            simp [wfList, truthy, hn] at hwl
          subst hn
          have hor : jsOr (JVal.num 0) (.arr []) = .arr [] := by
            simp [jsOr, truthy]
          rw [hor]
          simp only [asArray, ok_bind]
          exact ⟨st, rfl⟩
      | str s2 =>
          have hs : s2 = "" := by
            by_contra hs
            simp [wfList, truthy, hs] at hwl
          subst hs
          have hor : jsOr (JVal.str "") (.arr []) = .arr [] := by
            simp [jsOr, truthy]
          rw [hor]
          simp only [asArray, ok_bind]
          exact ⟨st, rfl⟩
      | obj o =>
          simp [wfList, truthy] at hwl
      | proto p =>
          simp [wfList, truthy] at hwl
  · rw [Bool.not_eq_true] at ht
    rw [if_pos (by simp [ht])]
    exact ⟨st, rfl⟩

lemma mkPersonNode_ok' {emp : JVal} (h : nonNullish emp) :
    ∃ node, mkPersonNode emp = .ok node := by
  rcases mkPersonNode_ok h with ⟨nm, node, _, hmk, _, _⟩
  exact ⟨node, hmk⟩

lemma filterActive_ok {emps : List JVal} (h : ∀ e ∈ emps, nonNullish e) :
    ∃ active, filterActive emps = .ok active := by
  unfold filterActive
  induction emps with
  | nil => exact ⟨[], rfl⟩
  | cons x xs ih =>
      rcases getProp_ok (v := x) "isActive" (h x (by simp)) with ⟨w, hw⟩
      rcases ih (fun e he => h e (by simp [he])) with ⟨rest, hrest⟩
      refine ⟨(if isActiveKeep w = true then x :: rest else rest), ?_⟩
      simp only [jsFilterExc, hw, ok_bind]
      rw [hrest]
      simp only [pure_eq_ok, ok_bind]

lemma getAttrs_ok {emp : JVal} (hnn : nonNullish emp) {cfg : AttrCfg}
    (hcfg : cfg ∈ attrConfig) (hw : wfRecord emp = true) :
    ∃ res, getAttrs emp cfg.field cfg.subField = .ok res := by
  unfold getAttrs
  rw [getProp_eq_propD hnn cfg.field, ok_bind]
  by_cases ht : truthy (propD emp cfg.field) = true
  · rw [if_neg (by simp [ht])]
    rw [getProp_eq_propD (truthy_nonNullish ht) cfg.subField, ok_bind]
    rcases wf_field hw hcfg with hfal | hwl
    · rw [ht] at hfal
      exact absurd hfal (by simp)
    · generalize hgen : propD (propD emp cfg.field) cfg.subField = raw at hwl ⊢
      by_cases htr : truthy raw = true
      · cases raw with
        | arr elems =>
            have hor : jsOr (.arr elems) (.arr []) = .arr elems := by
              simp [jsOr, truthy]
            rw [hor]
            simp only [asArray, ok_bind, pure_eq_ok]
            exact ⟨_, rfl⟩
        | undefined => simp [truthy] at htr
        | null => simp [truthy] at htr
        | bool b =>
            simp only [truthy] at htr
            simp [wfList, truthy, htr] at hwl
        | num n =>
            simp only [truthy] at htr
            simp [wfList, truthy] at hwl
            simp_all
        | str s2 =>
            simp only [truthy] at htr
            simp [wfList, truthy] at hwl
            simp_all
        | obj o => simp [wfList, truthy] at hwl
        | proto p => simp [wfList, truthy] at hwl
      · rw [Bool.not_eq_true] at htr
        have hor : jsOr raw (.arr []) = .arr [] := by simp [jsOr, htr]
        rw [hor]
        simp only [asArray, ok_bind, pure_eq_ok]
        exact ⟨_, rfl⟩
  · rw [Bool.not_eq_true] at ht
    rw [if_pos (by simp [ht])]
    exact ⟨[], rfl⟩

lemma sharesForPair_ok {a b : JVal} (ha : wfRecord a = true) (hb : wfRecord b = true) :
    ∃ es, sharesForPair a b = .ok es := by
  have hna := wfRecord_nonNullish ha
  have hnb := wfRecord_nonNullish hb
  have c1 : (⟨"skill", "work_styles_and_strengths", "dominant_strengths",
    "HAS_SKILL", "#60a5fa"⟩ : AttrCfg) ∈ attrConfig := by decide
  have c2 : (⟨"value", "values_and_motivators", "core_values",
    "VALUES", "#34d399"⟩ : AttrCfg) ∈ attrConfig := by decide
  have c3 : (⟨"interest", "current_state", "recent_topics_of_interest",
    "INTERESTED_IN", "#fb923c"⟩ : AttrCfg) ∈ attrConfig := by decide
  rcases getAttrs_ok hna c1 ha with ⟨aSk, h1⟩
  rcases getAttrs_ok hnb c1 hb with ⟨bSk, h2⟩
  rcases getAttrs_ok hna c2 ha with ⟨aVl, h3⟩
  rcases getAttrs_ok hnb c2 hb with ⟨bVl, h4⟩
  rcases getAttrs_ok hna c3 ha with ⟨aIn, h5⟩
  rcases getAttrs_ok hnb c3 hb with ⟨bIn, h6⟩
  rcases getProp_ok (v := a) "name" hna with ⟨an, han⟩
  rcases getProp_ok (v := b) "name" hnb with ⟨bn, hbn⟩
  unfold sharesForPair
  simp only [h1, h2, h3, h4, h5, h6, ok_bind, han, hbn]
  exact ite_ok _ _

/-- C3's amended statement core: a list of well-formed records never makes
Phase 1 throw. -/
lemma build_ok {emps : List JVal} (hw : ∀ e ∈ emps, wfRecord e = true) :
    ∃ g, buildMechanicalGraph emps = .ok g := by
  have hnn : ∀ e ∈ emps, nonNullish e := fun e he => wfRecord_nonNullish (hw e he)
  rcases filterActive_ok hnn with ⟨active, hact⟩
  have hsub := jsFilterExc_subset hact
  have hwact : ∀ e ∈ active, wfRecord e = true := fun e he => hw e (hsub e he)
  have hnact : ∀ e ∈ active, nonNullish e := fun e he => hnn e (hsub e he)
  rcases jsMapExc_ok (f := mkPersonNode) (l := active)
    (fun e he => mkPersonNode_ok' (hnact e he)) with ⟨personNodes, hmap⟩
  have hfoldAll : ∀ s : BuildState, ∀ cfg ∈ attrConfig,
      ∃ s', jsFoldExc (processEmpAttr cfg) s active = .ok s' := by
    intro s cfg hcfg
    apply jsFoldExc_ok
    intro s2 emp hemp
    exact processEmpAttr_ok s2 hcfg (hwact emp hemp)
  rcases jsFoldExc_ok attrConfig
    (⟨personNodes, [], personNodes.map Node.id, []⟩ : BuildState)
    hfoldAll with ⟨stf, hfold⟩
  have hpairsOk : ∀ p ∈ ijElemPairs active,
      ∃ es, sharesForPair p.1 p.2 = .ok es := by
    intro p hp
    rcases ijElemPairs_mem p hp with ⟨hp1, hp2⟩
    exact sharesForPair_ok (hwact _ hp1) (hwact _ hp2)
  rcases jsMapExc_ok hpairsOk with ⟨ess, hess⟩
  refine ⟨⟨stf.nodes, stf.edges ++ ess.flatten⟩, ?_⟩
  unfold buildMechanicalGraph sharesEdges
  simp only [hact, ok_bind, hmap, hfold, hess, pure_eq_ok]

/-! ## Further lemmas about Phase 2 -/

/-- Phase 2 never touches the node list. -/
lemma enhanceWithAI_nodes {env : AIEnv} {g g2 : Graph} {emps : List JVal}
    (h : enhanceWithAI env g emps = .ok g2) : g2.nodes = g.nodes := by
  unfold enhanceWithAI at h
  split at h
  · cases h
    rfl
  · split at h
    · cases h
      rfl
    · rcases bind_ok h with ⟨active, _, h⟩
      simp only [pure_eq_ok, Except.ok.injEq] at h
      rw [← h]

/-! ## The claims -/

/-- **C2** (corrected): `normalizeLabel` is idempotent on every value; a
successful `normalizeForId` output that does not name an `Object.prototype`
member is a fixed point of `normalizeForId`; and two surface labels with
the same canonical `normalizeLabel` value always yield the same
`normalizeForId` outcome, hence the same `attr:<slug>` node id.
Unrestricted idempotence of `normalizeForId` — what the spec claims — is
false of the program: see `C2_counterexample`. -/
theorem C2_normalizer_idempotent :
    (∀ v : JVal, normalizeLabelJ (normalizeLabelJ v) = normalizeLabelJ v) ∧
    (∀ x y : String, normalizeForId x = .ok y →
      protoProps.contains y = false → normalizeForId y = .ok y) ∧
    (∀ a b : String, normalizeLabel a = normalizeLabel b →
      (normalizeForId a).map (fun s => "attr:" ++ s) =
        (normalizeForId b).map (fun s => "attr:" ++ s)) := by
  refine ⟨normalizeLabelJ_idem, fun x y h hp => normalizeForId_ok_frozen h hp, ?_⟩
  intro a b h
  unfold normalizeForId normalizeForIdJ
  unfold normalizeLabel at h
  rw [h]

/-- C2 counterexample: `normalizeForId` is *not* idempotent on all strings.
On `"Constructor"` it returns `"constructor"`, but a second application
throws a `TypeError`: `synonymMap['constructor']` finds the inherited
`Object` constructor function on the prototype chain, which is truthy and
has no `.replace`. -/
theorem C2_counterexample :
    normalizeForId "Constructor" = .ok "constructor" ∧
    normalizeForId "constructor" = .error .typeError := ⟨rfl, rfl⟩

/-- Witness for C2: idempotence of `normalizeLabel` at `自己成長`, a frozen
slug `aws`, and the shared id of the synonym pair `自己成長`/`成長`. -/
theorem C2_witness :
    normalizeLabelJ (normalizeLabelJ (.str "自己成長")) =
      normalizeLabelJ (.str "自己成長") ∧
    normalizeForId "aws" = .ok "aws" ∧
    (normalizeForId "自己成長").map (fun s => "attr:" ++ s) =
      (normalizeForId "成長").map (fun s => "attr:" ++ s) :=
  ⟨C2_normalizer_idempotent.1 (.str "自己成長"),
   C2_normalizer_idempotent.2.1 "AWS" "aws" rfl rfl,
   C2_normalizer_idempotent.2.2 "自己成長" "成長" rfl⟩

/-- A record whose truthy `work_styles_and_strengths.dominant_strengths`
field holds the non-array `5`: the script's `items.map(normalizeLabel)`
then throws a `TypeError`. -/
def malformedEmployee : JVal :=
  .obj [("name", .str "x"),
        ("work_styles_and_strengths", .obj [("dominant_strengths", .num 5)])]

/-- **C3** (counterexample): Phase 1 *does* raise on a record list with a
malformed attribute list, contrary to the claim that every malformed field
degrades to an empty collection. -/
theorem C3_malformed_throws :
    buildMechanicalGraph [malformedEmployee] = .error .typeError := rfl

/-- **C3** (amended): Phase 1 never raises provided every record is
non-nullish and every *present, truthy* attribute list is an array of
strings whose synonym lookups stay off `Object.prototype`; absent or falsy
nested fields always degrade to empty collections.  Both restrictions are
needed: a truthy non-array list throws (`C3_malformed_throws`), and so does
a string array containing a prototype-member name such as `"constructor"`
(`synonymMap['constructor']` is the inherited `Object` constructor, on
which `.replace` throws). -/
theorem C3_wellformed_no_throw {emps : List JVal}
    (hw : ∀ e ∈ emps, wfRecord e = true) :
    ∃ g, buildMechanicalGraph emps = .ok g :=
  build_ok hw

/-- Witness for the amended C3: a record with an absent block, one with a
falsy list and one with a string-array list all build successfully. -/
theorem C3_witness :
    (∀ e ∈ [JVal.obj [("name", .str "A")],
            JVal.obj [("name", .str "B"),
                      ("values_and_motivators", .obj [("core_values", .null)])],
            JVal.obj [("name", .str "C"),
                      ("work_styles_and_strengths",
                        .obj [("dominant_strengths", .arr [.str "AWS"])])]],
        wfRecord e = true) ∧
    (∃ g, buildMechanicalGraph [JVal.obj [("name", .str "A")],
            JVal.obj [("name", .str "B"),
                      ("values_and_motivators", .obj [("core_values", .null)])],
            JVal.obj [("name", .str "C"),
                      ("work_styles_and_strengths",
                        .obj [("dominant_strengths", .arr [.str "AWS"])])]] = .ok g) :=
  ⟨by decide, C3_wellformed_no_throw (by decide)⟩

/-- **C4**: the number of person nodes in the output always equals the
number of records kept by the `isActive !== false` filter, and the
`employee_count` metadata field equals that same number; with zero active
records the pipeline runs to completion with zero nodes and
`employee_count = 0`. -/
theorem C4_person_count :
    (∀ (env : AIEnv) (emps active : List JVal) (out : Output),
      filterActive emps = .ok active → mainOutput env emps = .ok out →
      (out.nodes.filter (fun n => n.isPerson)).length = active.length ∧
      out.metadata.employee_count = active.length) ∧
    (∀ (env : AIEnv) (emps : List JVal), filterActive emps = .ok [] →
      ∃ out, mainOutput env emps = .ok out ∧ out.nodes = [] ∧
        out.metadata.employee_count = 0) := by
  constructor
  · intro env emps active out hact hmain
    rcases mainOutput_split hmain with ⟨g1, g2, active2, hb, he, hact2, hout⟩
    rw [hact] at hact2
    injection hact2 with hact2
    subst hact2
    rcases build_attrInv hb with ⟨active3, st, shares, hact3, hinv, _, hnodes, _⟩
    rw [hact] at hact3
    injection hact3 with hact3
    subst hact3
    have hn2 : g2.nodes = st.nodes := by
      rw [enhanceWithAI_nodes he, hnodes]
    rw [hout]
    exact ⟨by simp only [hn2]; exact hinv.person_count, rfl⟩
  · intro env emps hact
    have hbuild : buildMechanicalGraph emps = .ok ⟨[], []⟩ := by
      unfold buildMechanicalGraph
      rw [hact]
      rfl
    have henh : enhanceWithAI env ⟨[], []⟩ emps = .ok ⟨[], []⟩ := by
      by_cases hskip : env.skipAI = true
      · exact enhanceWithAI_skip (Or.inl hskip)
      · rw [Bool.not_eq_true] at hskip
        by_cases hkey : envTruthy env.apiKey = true
        · by_cases hproj : envTruthy env.projectId = true
          · have hrun := enhanceWithAI_run env ⟨[], []⟩ hskip hkey hproj hact
            simpa [ijElemPairs, chunksOf5] using hrun
          · rw [Bool.not_eq_true] at hproj
            exact enhanceWithAI_skip (Or.inr (Or.inr hproj))
        · rw [Bool.not_eq_true] at hkey
          exact enhanceWithAI_skip (Or.inr (Or.inl hkey))
    refine ⟨⟨⟨"employees.json", 0, 0, 0,
      !env.skipAI && (envTruthy env.apiKey && envTruthy env.projectId)⟩, [], []⟩,
      ?_, rfl, rfl⟩
    unfold mainOutput
    rw [hbuild]
    rw [ok_bind]
    rw [henh]
    rw [ok_bind]
    rw [hact]
    rfl

/-- Witness for C4 at a concrete two-record list with one inactive record,
and at a list whose only record is inactive. -/
theorem C4_witness :
    (filterActive [JVal.obj [("name", .str "A")],
        JVal.obj [("name", .str "B"), ("isActive", .bool false)]] =
      .ok [JVal.obj [("name", .str "A")]]) ∧
    (∀ out, mainOutput ⟨true, none, none, fun _ => .exn⟩
        [JVal.obj [("name", .str "A")],
         JVal.obj [("name", .str "B"), ("isActive", .bool false)]] = .ok out →
      (out.nodes.filter (fun n => n.isPerson)).length = 1 ∧
      out.metadata.employee_count = 1) ∧
    (∃ out, mainOutput ⟨true, none, none, fun _ => .exn⟩
        [JVal.obj [("isActive", .bool false)]] = .ok out ∧ out.nodes = [] ∧
      out.metadata.employee_count = 0) := by
  refine ⟨rfl, ?_, ?_⟩
  · intro out hout
    exact C4_person_count.1 ⟨true, none, none, fun _ => .exn⟩
      [JVal.obj [("name", .str "A")],
       JVal.obj [("name", .str "B"), ("isActive", .bool false)]]
      [JVal.obj [("name", .str "A")]] out rfl hout
  · exact C4_person_count.2 ⟨true, none, none, fun _ => .exn⟩ _ rfl

/-- The three AI edge types. -/
def aiEdgeTypes : List String := ["COMPLEMENTS", "MENTORING_FIT", "TEAM_SYNERGY"]

/-- Phase-1 edges never carry an AI edge type. -/
lemma build_no_ai_types {emps : List JVal} {g : Graph}
    (h : buildMechanicalGraph emps = .ok g) :
    ∀ e ∈ g.edges, (e.type ∈ aiEdgeTypes) = False := by
  intro e he
  simp only [eq_iff_iff, iff_false]
  intro hmem
  rcases build_edge_types h e he with ⟨ht, _⟩
  rcases ht with ht | ht
  · simp only [dimEdgeTypes, List.mem_cons, List.mem_singleton,
      List.not_mem_nil, or_false] at ht
    simp only [aiEdgeTypes, List.mem_cons, List.mem_singleton,
      List.not_mem_nil, or_false] at hmem
    rcases ht with h1 | h1 | h1 | h1 <;> rw [h1] at hmem <;> simp at hmem
  · rw [ht] at hmem
    simp [aiEdgeTypes] at hmem

/-- **C5**: with Phase 2 explicitly disabled or a required credential
absent, the Phase-1 graph passes through entirely unchanged, the output
carries `ai_enhanced = false`, and it contains zero `COMPLEMENTS`,
`MENTORING_FIT` and `TEAM_SYNERGY` edges. -/
theorem C5_phase2_disabled :
    (∀ (env : AIEnv) (g : Graph) (emps : List JVal),
      (env.skipAI = true ∨ envTruthy env.apiKey = false ∨
        envTruthy env.projectId = false) →
      enhanceWithAI env g emps = .ok g) ∧
    (∀ (env : AIEnv) (emps : List JVal) (out : Output),
      (env.skipAI = true ∨ envTruthy env.apiKey = false ∨
        envTruthy env.projectId = false) →
      mainOutput env emps = .ok out →
      out.metadata.ai_enhanced = false ∧
      out.edges.countP (fun e => e.type == "COMPLEMENTS" ||
        e.type == "MENTORING_FIT" || e.type == "TEAM_SYNERGY") = 0) := by
  constructor
  · intro env g emps h
    exact enhanceWithAI_skip h
  · intro env emps out h hmain
    rcases mainOutput_split hmain with ⟨g1, g2, active, hb, he, hact, hout⟩
    have hg2 : g2 = g1 := by
      rw [enhanceWithAI_skip h] at he
      injection he with he
      exact he.symm
    constructor
    · rw [hout]
      rcases h with h | h | h
      · simp [h]
      · simp [h]
      · simp [h]
    · rw [hout]
      simp only
      rw [hg2]
      rw [List.countP_eq_zero]
      intro e he2
      have hne := build_no_ai_types hb e he2
      simp only [aiEdgeTypes, List.mem_cons, List.mem_singleton,
        List.not_mem_nil, or_false, eq_iff_iff, iff_false, not_or] at hne
      simp only [Bool.or_eq_true, beq_iff_eq]
      push_neg
      exact ⟨⟨hne.1, hne.2.1⟩, hne.2.2⟩

/-- Witness for C5: a skip-flagged environment over a one-record list. -/
theorem C5_witness :
    enhanceWithAI ⟨true, some "k", some "p", fun _ => .exn⟩ ⟨[], []⟩
        [JVal.obj [("name", .str "A")]] = .ok ⟨[], []⟩ ∧
    (∀ out, mainOutput ⟨true, some "k", some "p", fun _ => .exn⟩
        [JVal.obj [("name", .str "A")]] = .ok out →
      out.metadata.ai_enhanced = false ∧
      out.edges.countP (fun e => e.type == "COMPLEMENTS" ||
        e.type == "MENTORING_FIT" || e.type == "TEAM_SYNERGY") = 0) :=
  ⟨C5_phase2_disabled.1 ⟨true, some "k", some "p", fun _ => .exn⟩ ⟨[], []⟩
      [JVal.obj [("name", .str "A")]] (Or.inl rfl),
   fun out hout => C5_phase2_disabled.2 ⟨true, some "k", some "p", fun _ => .exn⟩
      [JVal.obj [("name", .str "A")]] out (Or.inl rfl) hout⟩

/-- **C6**: a failed batch (non-success response or thrown parse error)
contributes zero edges and the pipeline continues; the failure neither
removes nor alters the Phase-1 subgraph nor the contribution of any other
batch. -/
theorem C6_batch_failure_isolated :
    ∀ (env env' : AIEnv) (g : Graph) (emps active : List JVal) (k : Nat),
      env'.skipAI = false → envTruthy env'.apiKey = true →
      envTruthy env'.projectId = true →
      filterActive emps = .ok active →
      (∀ j, j ≠ k → env'.outcomes j = env.outcomes j) →
      (env'.outcomes k = .httpError ∨ env'.outcomes k = .exn) →
      enhanceWithAI env' g emps = .ok { g with edges := g.edges ++
        ((List.range (chunksOf5 (ijElemPairs active)).length).map
          (fun j => if j = k then [] else batchContrib (env.outcomes j))).flatten } := by
  intro env env' g emps active k hskip hkey hproj hact hagree hfail
  have hrun := enhanceWithAI_run env' g hskip hkey hproj hact
  have hmap : (List.range (chunksOf5 (ijElemPairs active)).length).map
      (fun j => batchContrib (env'.outcomes j)) =
      (List.range (chunksOf5 (ijElemPairs active)).length).map
      (fun j => if j = k then [] else batchContrib (env.outcomes j)) := by
    apply List.map_congr_left
    intro j _
    by_cases hj : j = k
    · subst hj
      rw [if_pos rfl]
      rcases hfail with hf | hf <;> rw [hf] <;> rfl
    · rw [if_neg hj, hagree j hj]
  rw [hmap] at hrun
  exact hrun

/-- Witness for C6: two active records form one pair and one batch; the
varied environment fails that batch, the reference environment parses an
empty judgment array. -/
theorem C6_witness :
    enhanceWithAI ⟨false, some "k", some "p",
        fun j => if j = 0 then .exn else .parsed []⟩ ⟨[], []⟩
      [JVal.obj [("name", .str "A")], JVal.obj [("name", .str "B")]] =
    .ok { (⟨[], []⟩ : Graph) with edges := [] ++
      ((List.range (chunksOf5 (ijElemPairs
          [JVal.obj [("name", .str "A")], JVal.obj [("name", .str "B")]])).length).map
        (fun j => if j = 0 then [] else
          batchContrib ((fun _ => BatchOutcome.parsed []) j))).flatten } :=
  C6_batch_failure_isolated ⟨false, some "k", some "p", fun _ => .parsed []⟩
    ⟨false, some "k", some "p", fun j => if j = 0 then .exn else .parsed []⟩
    ⟨[], []⟩ [JVal.obj [("name", .str "A")], JVal.obj [("name", .str "B")]]
    [JVal.obj [("name", .str "A")], JVal.obj [("name", .str "B")]] 0
    rfl rfl rfl rfl (fun j hj => by simp [hj]) (Or.inr (by simp))

@[simp] lemma jsToString_str (s : String) : jsToString (.str s) = s := rfl

/-- A judgment object of the response schema: pair names plus the three
optional judgment fields (score with rationale; mentoring also carries a
direction). -/
structure Judgment where
  person_a : String
  person_b : String
  complements : Option (Int × String)
  mentoring_fit : Option (Int × String × String)
  team_synergy : Option (Int × String)

/-- The parsed JSON object for a judgment. -/
def Judgment.toJVal (j : Judgment) : JVal :=
  .obj ([("person_a", .str j.person_a), ("person_b", .str j.person_b)] ++
    (match j.complements with
     | some (sc, rsn) =>
         [("complements", .obj [("score", .num sc), ("reason", .str rsn)])]
     | none => []) ++
    (match j.mentoring_fit with
     | some (sc, dir, rsn) =>
         [("mentoring_fit", .obj [("score", .num sc), ("direction", .str dir),
            ("reason", .str rsn)])]
     | none => []) ++
    (match j.team_synergy with
     | some (sc, rsn) =>
         [("team_synergy", .obj [("score", .num sc), ("reason", .str rsn)])]
     | none => []))

/-- Modelled from the spec's words (§4.3 step 4 and the edge data model):
for each judgment field present with score ≥ 5, exactly one corresponding
edge, weighted by the model score, carrying the rationale, flagged
`ai_generated`, and carrying the direction tag for `MENTORING_FIT`;
fields scoring below 5 or missing produce nothing. -/
def expectedJudgmentEdges (j : Judgment) : List Edge :=
  (match j.complements with
   | some (sc, rsn) =>
       if 5 ≤ sc then
         [{ source := "person:" ++ j.person_a, target := "person:" ++ j.person_b,
            type := "COMPLEMENTS", weight := .num sc,
            reason := some (.str rsn), ai_generated := true }]
       else []
   | none => []) ++
  (match j.mentoring_fit with
   | some (sc, dir, rsn) =>
       if 5 ≤ sc then
         [{ source := "person:" ++ j.person_a, target := "person:" ++ j.person_b,
            type := "MENTORING_FIT", weight := .num sc,
            direction := some (.str dir),
            reason := some (.str rsn), ai_generated := true }]
       else []
   | none => []) ++
  (match j.team_synergy with
   | some (sc, rsn) =>
       if 5 ≤ sc then
         [{ source := "person:" ++ j.person_a, target := "person:" ++ j.person_b,
            type := "TEAM_SYNERGY", weight := .num sc,
            reason := some (.str rsn), ai_generated := true }]
       else []
   | none => [])

set_option maxHeartbeats 1600000 in
/-- **C7**: on a well-formed judgment, the batch parser appends exactly the
spec's expected edges — one edge per field with score ≥ 5, weight equal to
the model score, rationale and `ai_generated` carried, the direction tag on
`MENTORING_FIT` — and nothing for missing or sub-threshold fields; under
the schema's 0–10 score range every produced edge's weight lies in 5–10. -/
theorem C7_judgment_edges (j : Judgment)
    (hc : ∀ sc rsn, j.complements = some (sc, rsn) → sc ≤ 10)
    (hm : ∀ sc dir rsn, j.mentoring_fit = some (sc, dir, rsn) → sc ≤ 10)
    (hs : ∀ sc rsn, j.team_synergy = some (sc, rsn) → sc ≤ 10) :
    judgeEdges j.toJVal = .ok (expectedJudgmentEdges j) ∧
    ∀ e ∈ expectedJudgmentEdges j, e.ai_generated = true ∧
      ∃ n : Int, e.weight = .num n ∧ 5 ≤ n ∧ n ≤ 10 := by
  obtain ⟨pa, pb, c, m, t⟩ := j
  constructor
  · rcases c with _ | ⟨sc, rc⟩ <;> rcases m with _ | ⟨sm, dm, rm⟩ <;>
      rcases t with _ | ⟨st2, rt⟩
    · rfl
    · by_cases h3 : (5:Int) ≤ st2 <;>
        simp [judgeEdges, Judgment.toJVal, getProp, optChain, jsGE, toNumber,
          expectedJudgmentEdges, h3]
    · by_cases h2 : (5:Int) ≤ sm <;>
        simp [judgeEdges, Judgment.toJVal, getProp, optChain, jsGE, toNumber,
          expectedJudgmentEdges, h2]
    · by_cases h2 : (5:Int) ≤ sm <;> by_cases h3 : (5:Int) ≤ st2 <;>
        simp [judgeEdges, Judgment.toJVal, getProp, optChain, jsGE, toNumber,
          expectedJudgmentEdges, h2, h3]
    · by_cases h1 : (5:Int) ≤ sc <;>
        simp [judgeEdges, Judgment.toJVal, getProp, optChain, jsGE, toNumber,
          expectedJudgmentEdges, h1]
    · by_cases h1 : (5:Int) ≤ sc <;> by_cases h3 : (5:Int) ≤ st2 <;>
        simp [judgeEdges, Judgment.toJVal, getProp, optChain, jsGE, toNumber,
          expectedJudgmentEdges, h1, h3]
    · by_cases h1 : (5:Int) ≤ sc <;> by_cases h2 : (5:Int) ≤ sm <;>
        simp [judgeEdges, Judgment.toJVal, getProp, optChain, jsGE, toNumber,
          expectedJudgmentEdges, h1, h2]
    · by_cases h1 : (5:Int) ≤ sc <;> by_cases h2 : (5:Int) ≤ sm <;>
        by_cases h3 : (5:Int) ≤ st2 <;>
        simp [judgeEdges, Judgment.toJVal, getProp, optChain, jsGE, toNumber,
          expectedJudgmentEdges, h1, h2, h3]
  · intro e he
    simp only [expectedJudgmentEdges, List.mem_append] at he
    rcases he with (he | he) | he
    · rcases hco : c with _ | ⟨sc, rc⟩
      · rw [hco] at he
        simp at he
      · rw [hco] at he
        dsimp only at he
        by_cases h5 : (5:Int) ≤ sc
        · rw [if_pos h5] at he
          simp only [List.mem_singleton] at he
          subst he
          exact ⟨rfl, sc, rfl, h5, hc sc rc hco⟩
        · rw [if_neg h5] at he
          simp at he
    · rcases hmo : m with _ | ⟨sm, dm, rm⟩
      · rw [hmo] at he
        simp at he
      · rw [hmo] at he
        dsimp only at he
        by_cases h5 : (5:Int) ≤ sm
        · rw [if_pos h5] at he
          simp only [List.mem_singleton] at he
          subst he
          exact ⟨rfl, sm, rfl, h5, hm sm dm rm hmo⟩
        · rw [if_neg h5] at he
          simp at he
    · rcases hto : t with _ | ⟨st2, rt⟩
      · rw [hto] at he
        simp at he
      · rw [hto] at he
        dsimp only at he
        by_cases h5 : (5:Int) ≤ st2
        · rw [if_pos h5] at he
          simp only [List.mem_singleton] at he
          subst he
          exact ⟨rfl, st2, rfl, h5, hs st2 rt hto⟩
        · rw [if_neg h5] at he
          simp at he

/-- Witness for C7: a judgment with a passing complements score, a
sub-threshold mentoring score and no synergy field. -/
theorem C7_witness :
    judgeEdges (Judgment.toJVal
        ⟨"A", "B", some (7, "r1"), some (4, "A→B", "r2"), none⟩) =
      .ok (expectedJudgmentEdges
        ⟨"A", "B", some (7, "r1"), some (4, "A→B", "r2"), none⟩) ∧
    ∀ e ∈ expectedJudgmentEdges
        ⟨"A", "B", some (7, "r1"), some (4, "A→B", "r2"), none⟩,
      e.ai_generated = true ∧ ∃ n : Int, e.weight = .num n ∧ 5 ≤ n ∧ n ≤ 10 :=
  C7_judgment_edges ⟨"A", "B", some (7, "r1"), some (4, "A→B", "r2"), none⟩
    (by simp) (by simp) (by simp)

/-! ## C9: the attribute-node upsert semantics as a reference replay -/

/-- One reference to an attribute node made by the Phase-1 dimension loops:
the dimension tag and colour of the pass, the employee's `name`, the
canonical item, and the node id derived from its slug. -/
structure AttrRef where
  tag : String
  color : String
  name : JVal
  item : JVal
  nodeId : String

/-- The reference one canonical item of one dimension pass generates (the
id computation is the `normalizeForId` call of the loop body, which can
throw). -/
def itemRef (cfg : AttrCfg) (name item : JVal) : Except JsErr AttrRef := do
  let slug ← normalizeForIdJ item
  pure ⟨cfg.tag, cfg.color, name, item, "attr:" ++ slug⟩

/-- The references one employee contributes to one dimension pass, in loop
order (empty when the profile block is falsy, exactly as the loop's early
`return`). -/
def refsOfEmp (cfg : AttrCfg) (emp : JVal) : Except JsErr (List AttrRef) := do
  let items ← getAttrs emp cfg.field cfg.subField
  let name ← getProp emp "name"
  jsMapExc (itemRef cfg name) items

/-- The references of one dimension pass over all active employees. -/
def refsOfCfg (cfg : AttrCfg) (active : List JVal) : Except JsErr (List AttrRef) := do
  let rss ← jsMapExc (refsOfEmp cfg) active
  pure rss.flatten

/-- The full ordered reference sequence of the Phase-1 attribute loops:
dimensions outermost, then employees, then canonical items. -/
def attrRefs (active : List JVal) : Except JsErr (List AttrRef) := do
  let rss ← jsMapExc (fun cfg => refsOfCfg cfg active) attrConfig
  pure rss.flatten

/-- First-occurrence deduplication of a string list: the order and content
produced by `includes`-guarded pushes (and by `Set` insertion on strings). -/
def dedupStr (l : List String) : List String :=
  l.foldl (fun acc v => if acc.contains v then acc else acc ++ [v]) []

/-- The node-array effect of one attribute reference: create the node when
its id is absent, then apply the script's category/membership union. -/
def upsertRef (acc : List Node) (r : AttrRef) : List Node :=
  updateFirstNode r.nodeId (attrNodeUpd r.tag r.name)
    (if acc.any (fun n => n.id == r.nodeId) then acc
     else acc ++ [.attr r.nodeId r.item [r.tag] r.color []])

/-- Replaying a reference sequence over an empty node array. -/
def replayRefs (refs : List AttrRef) : List Node := refs.foldl upsertRef []

lemma dedupStr_append (l : List String) (x : String) :
    dedupStr (l ++ [x]) =
      if (dedupStr l).contains x then dedupStr l else dedupStr l ++ [x] := by
  unfold dedupStr
  rw [List.foldl_append]
  rfl

lemma dedupSVZ_append (l : List JVal) (x : JVal) :
    dedupSVZ (l ++ [x]) =
      if (dedupSVZ l).any (fun w => svz w x) then dedupSVZ l
      else dedupSVZ l ++ [x] := by
  unfold dedupSVZ
  rw [List.foldl_append]
  rfl

lemma dedupStr_mem_aux (l : List String) :
    ∀ (acc : List String) (x : String),
      x ∈ l.foldl (fun acc v => if acc.contains v then acc else acc ++ [v]) acc ↔
        x ∈ acc ∨ x ∈ l := by
  induction l with
  | nil => intro acc x; simp
  | cons v vs ih =>
      intro acc x
      rw [List.foldl_cons, ih]
      constructor
      · rintro (hx | hx)
        · by_cases hc : acc.contains v = true
          · rw [if_pos hc] at hx
            exact Or.inl hx
          · rw [Bool.not_eq_true] at hc
            rw [if_neg (by rw [hc]; exact Bool.false_ne_true)] at hx
            rcases List.mem_append.1 hx with hx2 | hx2
            · exact Or.inl hx2
            · simp only [List.mem_singleton] at hx2
              exact Or.inr (by simp [hx2])
        · exact Or.inr (by simp [hx])
      · rintro (hx | hx)
        · left
          by_cases hc : acc.contains v = true
          · rw [if_pos hc]
            exact hx
          · rw [Bool.not_eq_true] at hc
            rw [if_neg (by rw [hc]; exact Bool.false_ne_true)]
            exact List.mem_append_left _ hx
        · rcases List.mem_cons.1 hx with hx2 | hx2
          · subst hx2
            left
            by_cases hc : acc.contains x = true
            · rw [if_pos hc]
              exact List.elem_iff.1 hc
            · rw [Bool.not_eq_true] at hc
              rw [if_neg (by rw [hc]; exact Bool.false_ne_true)]
              simp
          · exact Or.inr hx2

lemma dedupStr_mem (l : List String) (x : String) : x ∈ dedupStr l ↔ x ∈ l := by
  unfold dedupStr
  rw [dedupStr_mem_aux]
  simp

lemma dedupStr_nodup_aux (l : List String) :
    ∀ acc : List String, acc.Nodup →
      (l.foldl (fun acc v => if acc.contains v then acc else acc ++ [v]) acc).Nodup := by
  induction l with
  | nil => intro acc h; exact h
  | cons v vs ih =>
      intro acc h
      rw [List.foldl_cons]
      apply ih
      by_cases hc : acc.contains v = true
      · rw [if_pos hc]
        exact h
      · rw [Bool.not_eq_true] at hc
        rw [if_neg (by rw [hc]; exact Bool.false_ne_true)]
        rw [List.nodup_append]
        refine ⟨h, by simp, ?_⟩
        intro a ha hb
        simp only [List.mem_singleton] at hb
        exact contains_false_not_mem hc (hb ▸ ha)

lemma dedupStr_nodup (l : List String) : (dedupStr l).Nodup :=
  dedupStr_nodup_aux l [] List.nodup_nil

/-- In this model `SameValueZero` only ever holds between equal values
(composites from distinct parse positions are never reference-equal, and
each prototype member is a singleton). -/
lemma svz_eq {a b : JVal} (h : svz a b = true) : a = b := by
  cases a <;> cases b <;> simp_all [svz]

lemma any_svz_iff (l : List JVal) (x : JVal) :
    l.any (fun w => svz w x) = true ↔ svz x x = true ∧ x ∈ l := by
  rw [List.any_eq_true]
  constructor
  · rintro ⟨w, hw, hsvz⟩
    have hwx := svz_eq hsvz
    subst hwx
    exact ⟨hsvz, hw⟩
  · rintro ⟨hxx, hx⟩
    exact ⟨x, hx, hxx⟩

lemma dedupSVZ_mem_aux (l : List JVal) :
    ∀ (acc : List JVal) (x : JVal),
      x ∈ l.foldl (fun acc v =>
          if acc.any (fun w => svz w v) then acc else acc ++ [v]) acc ↔
        x ∈ acc ∨ x ∈ l := by
  induction l with
  | nil => intro acc x; simp
  | cons v vs ih =>
      intro acc x
      rw [List.foldl_cons, ih]
      constructor
      · rintro (hx | hx)
        · by_cases hc : acc.any (fun w => svz w v) = true
          · rw [if_pos hc] at hx
            exact Or.inl hx
          · rw [Bool.not_eq_true] at hc
            rw [if_neg (by rw [hc]; exact Bool.false_ne_true)] at hx
            rcases List.mem_append.1 hx with hx2 | hx2
            · exact Or.inl hx2
            · simp only [List.mem_singleton] at hx2
              exact Or.inr (by simp [hx2])
        · exact Or.inr (by simp [hx])
      · rintro (hx | hx)
        · left
          by_cases hc : acc.any (fun w => svz w v) = true
          · rw [if_pos hc]
            exact hx
          · rw [Bool.not_eq_true] at hc
            rw [if_neg (by rw [hc]; exact Bool.false_ne_true)]
            exact List.mem_append_left _ hx
        · rcases List.mem_cons.1 hx with hx2 | hx2
          · subst hx2
            left
            by_cases hc : acc.any (fun w => svz w x) = true
            · rw [if_pos hc]
              exact ((any_svz_iff acc x).1 hc).2
            · rw [Bool.not_eq_true] at hc
              rw [if_neg (by rw [hc]; exact Bool.false_ne_true)]
              simp
          · exact Or.inr hx2

lemma dedupSVZ_mem (l : List JVal) (x : JVal) : x ∈ dedupSVZ l ↔ x ∈ l := by
  unfold dedupSVZ
  rw [dedupSVZ_mem_aux]
  simp

lemma dedupSVZ_any (l : List JVal) (x : JVal) :
    (dedupSVZ l).any (fun w => svz w x) = l.any (fun w => svz w x) := by
  by_cases h : l.any (fun w => svz w x) = true
  · rw [h]
    rcases (any_svz_iff l x).1 h with ⟨hxx, hx⟩
    exact (any_svz_iff (dedupSVZ l) x).2 ⟨hxx, (dedupSVZ_mem l x).2 hx⟩
  · rw [Bool.not_eq_true] at h
    rw [h, Bool.eq_false_iff]
    intro hcontra
    rcases (any_svz_iff (dedupSVZ l) x).1 hcontra with ⟨hxx, hx⟩
    have h2 : l.any (fun w => svz w x) = true :=
      (any_svz_iff l x).2 ⟨hxx, (dedupSVZ_mem l x).1 hx⟩
    rw [h] at h2
    exact Bool.false_ne_true h2

lemma updateFirstNode_skip (i : String) (f : Node → Node) :
    ∀ (l1 l2 : List Node), (∀ m ∈ l1, ¬ m.id = i) →
      updateFirstNode i f (l1 ++ l2) = l1 ++ updateFirstNode i f l2 := by
  intro l1
  induction l1 with
  | nil => intro l2 _; rfl
  | cons n ns ih =>
      intro l2 h
      have hne : ¬ n.id = i := h n (by simp)
      have hstep : updateFirstNode i f (n :: (ns ++ l2)) =
          n :: updateFirstNode i f (ns ++ l2) := by
        simp only [updateFirstNode]
        rw [if_neg (by simpa using hne)]
      show updateFirstNode i f (n :: (ns ++ l2)) = n :: (ns ++ updateFirstNode i f l2)
      rw [hstep, ih l2 (fun m hm => h m (by simp [hm]))]

lemma updateFirstNode_cons_hit {n : Node} {i : String} (f : Node → Node)
    (h : n.id = i) (l : List Node) :
    updateFirstNode i f (n :: l) = f n :: l := by
  unfold updateFirstNode
  rw [if_pos (by simpa using h)]

lemma updateFirstNode_split {l : List Node} {i : String}
    (hmem : i ∈ l.map Node.id) (f : Node → Node) :
    ∃ l1 n0 l2, l = l1 ++ n0 :: l2 ∧ n0.id = i ∧ (∀ m ∈ l1, ¬ m.id = i) ∧
      updateFirstNode i f l = l1 ++ f n0 :: l2 := by
  induction l with
  | nil => simp at hmem
  | cons n ns ih =>
      by_cases hn : n.id = i
      · refine ⟨[], n, ns, by simp, hn, by simp, ?_⟩
        rw [updateFirstNode_cons_hit f hn]
        rfl
      · have hmem2 : i ∈ ns.map Node.id := by
          rcases List.mem_map.1 hmem with ⟨m, hm, hid⟩
          rcases List.mem_cons.1 hm with hEq | hm2
          · subst hEq
            exact absurd hid hn
          · exact hid ▸ List.mem_map_of_mem Node.id hm2
        rcases ih hmem2 with ⟨l1, n0, l2, hsplit, hid0, hl1, hupd⟩
        refine ⟨n :: l1, n0, l2, by rw [hsplit]; rfl, hid0, ?_, ?_⟩
        · intro m hm
          rcases List.mem_cons.1 hm with hEq | hm2
          · subst hEq
            exact hn
          · exact hl1 m hm2
        · show updateFirstNode i f (n :: ns) = n :: l1 ++ f n0 :: l2
          unfold updateFirstNode
          rw [if_neg (by simpa using hn), hupd]
          rfl

/-- Invariant of the replay: the accumulated attribute-node array is fully
determined by the references processed so far — ids in first-occurrence
order, and each node's categories and people the ordered dedups of the
tags and names of the references to its id. -/
def GoodAcc (done : List AttrRef) (acc : List Node) : Prop :=
  acc.map Node.id = dedupStr (done.map (fun r => r.nodeId)) ∧
  (∀ n ∈ acc, n.isPerson = false) ∧
  ∀ i lb cats col people, (Node.attr i lb cats col people) ∈ acc →
    cats = dedupStr ((done.filter (fun r => r.nodeId == i)).map (fun r => r.tag)) ∧
    people = dedupSVZ ((done.filter (fun r => r.nodeId == i)).map (fun r => r.name))

/-- `attrNodeUpd` on an attribute node, spelled out. -/
lemma attrNodeUpd_attr (tag : String) (empName : JVal) (i : String) (lb : JVal)
    (cats : List String) (col : String) (people : List JVal) :
    attrNodeUpd tag empName (Node.attr i lb cats col people) =
      Node.attr i lb (if cats.contains tag then cats else cats ++ [tag]) col
        (if people.any (fun w => svz w empName) then people
         else people ++ [empName]) := rfl

/-- The union step applied to a freshly created node: the tag is already
present, the people list gains the referencing employee. -/
lemma upsert_new (r : AttrRef) :
    attrNodeUpd r.tag r.name (Node.attr r.nodeId r.item [r.tag] r.color []) =
      Node.attr r.nodeId r.item [r.tag] r.color [r.name] := by
  unfold attrNodeUpd
  simp

lemma good_step {done : List AttrRef} {acc : List Node} (hg : GoodAcc done acc)
    (r : AttrRef) : GoodAcc (done ++ [r]) (upsertRef acc r) := by
  obtain ⟨hids, hnp, hnodes⟩ := hg
  have hmapids : (done ++ [r]).map (fun r => r.nodeId)
      = done.map (fun r => r.nodeId) ++ [r.nodeId] := by simp
  by_cases hc : acc.any (fun n => n.id == r.nodeId) = true
  · -- the node exists: pure in-place union
    have hmem : r.nodeId ∈ acc.map Node.id := by
      rcases List.any_eq_true.1 hc with ⟨n, hn, hbeq⟩
      have hid : n.id = r.nodeId := by simpa using hbeq
      exact hid ▸ List.mem_map_of_mem Node.id hn
    have hnodup : (acc.map Node.id).Nodup := by
      rw [hids]
      exact dedupStr_nodup _
    rcases updateFirstNode_split hmem (attrNodeUpd r.tag r.name) with
      ⟨l1, n0, l2, hsplit, hid0, hl1, hupd⟩
    have hres : upsertRef acc r = l1 ++ attrNodeUpd r.tag r.name n0 :: l2 := by
      unfold upsertRef
      rw [if_pos hc]
      exact hupd
    have hl2 : ∀ m ∈ l2, ¬ m.id = r.nodeId := by
      intro m hm hmid
      rw [hsplit, List.map_append] at hnodup
      rcases List.nodup_append.1 hnodup with ⟨_, hnodup2, _⟩
      rw [List.map_cons] at hnodup2
      rcases List.nodup_cons.1 hnodup2 with ⟨hn0notin, _⟩
      apply hn0notin
      rw [hid0, ← hmid]
      exact List.mem_map_of_mem Node.id hm
    have hcont : (dedupStr (done.map (fun r => r.nodeId))).contains r.nodeId = true := by
      rw [← hids]
      exact List.elem_iff.2 hmem
    refine ⟨?_, ?_, ?_⟩
    · rw [hres]
      have hmapeq : (l1 ++ attrNodeUpd r.tag r.name n0 :: l2).map Node.id
          = (l1 ++ n0 :: l2).map Node.id := by
        simp [attrNodeUpd_id]
      rw [hmapeq, ← hsplit, hids, hmapids, dedupStr_append, if_pos hcont]
    · rw [hres]
      intro n hn
      rcases List.mem_append.1 hn with hn2 | hn2
      · exact hnp n (by rw [hsplit]; exact List.mem_append_left _ hn2)
      · rcases List.mem_cons.1 hn2 with hEq | hn3
        · subst hEq
          rw [attrNodeUpd_isPerson]
          exact hnp n0 (by rw [hsplit]; simp)
        · exact hnp n (by rw [hsplit]; simp [hn3])
    · intro i lb cats col people hmem2
      rw [hres] at hmem2
      have hfilter_ne : ∀ j : String, ¬ j = r.nodeId →
          (done ++ [r]).filter (fun rr => rr.nodeId == j)
            = done.filter (fun rr => rr.nodeId == j) := by
        intro j hj
        rw [List.filter_append]
        have hone : [r].filter (fun rr => rr.nodeId == j) = [] := by
          simp only [List.filter_cons, List.filter_nil]
          rw [if_neg]
          intro hbeq
          have hrid : r.nodeId = j := by simpa using hbeq
          exact hj hrid.symm
        rw [hone, List.append_nil]
      rcases List.mem_append.1 hmem2 with hn2 | hn2
      · -- untouched node left of the hit
        have hmem3 : (Node.attr i lb cats col people) ∈ acc := by
          rw [hsplit]
          exact List.mem_append_left _ hn2
        have hne : ¬ i = r.nodeId := by
          intro hieq
          exact hl1 _ hn2 (by simpa using hieq)
        rw [hfilter_ne i hne]
        exact hnodes i lb cats col people hmem3
      · rcases List.mem_cons.1 hn2 with hEq | hn3
        · -- the updated node
          have hn0attr : ∃ lb0 cats0 col0 ppl0,
              n0 = Node.attr r.nodeId lb0 cats0 col0 ppl0 := by
            have hp0 : n0.isPerson = false := hnp n0 (by rw [hsplit]; simp)
            cases n0 with
            | person a b c d e => simp [Node.isPerson] at hp0
            | attr a b c d e =>
                have ha : a = r.nodeId := hid0
                exact ⟨b, c, d, e, by rw [ha]⟩
          rcases hn0attr with ⟨lb0, cats0, col0, ppl0, hn0⟩
          rcases hnodes r.nodeId lb0 cats0 col0 ppl0
            (by rw [hsplit, ← hn0]; simp) with ⟨hc0, hp0⟩
          rw [hn0, attrNodeUpd_attr] at hEq
          injection hEq with e1 e2 e3 e4 e5
          subst e1
          subst e2
          subst e3
          subst e4
          subst e5
          have hfr : (done ++ [r]).filter (fun rr => rr.nodeId == r.nodeId)
              = done.filter (fun rr => rr.nodeId == r.nodeId) ++ [r] := by
            rw [List.filter_append]
            simp
          rw [hfr]
          constructor
          · simp only [List.map_append, List.map_cons, List.map_nil]
            rw [dedupStr_append, ← hc0]
          · simp only [List.map_append, List.map_cons, List.map_nil]
            rw [dedupSVZ_append, ← hp0]
        · -- untouched node right of the hit
          have hmem3 : (Node.attr i lb cats col people) ∈ acc := by
            rw [hsplit]
            simp [hn3]
          have hne : ¬ i = r.nodeId := by
            intro hieq
            exact hl2 _ hn3 (by simpa using hieq)
          rw [hfilter_ne i hne]
          exact hnodes i lb cats col people hmem3
  · -- the node is created, then updated in place
    rw [Bool.not_eq_true] at hc
    have hnotmem : r.nodeId ∉ acc.map Node.id := by
      intro hmem
      rcases List.mem_map.1 hmem with ⟨n, hn, hid⟩
      have h2 : acc.any (fun n => n.id == r.nodeId) = true :=
        List.any_eq_true.2 ⟨n, hn, by simpa using hid⟩
      rw [hc] at h2
      exact Bool.false_ne_true h2
    have hupd1 : updateFirstNode r.nodeId (attrNodeUpd r.tag r.name)
        [Node.attr r.nodeId r.item [r.tag] r.color []]
        = [attrNodeUpd r.tag r.name (Node.attr r.nodeId r.item [r.tag] r.color [])] := by
      simp [updateFirstNode]
    have hres : upsertRef acc r =
        acc ++ [Node.attr r.nodeId r.item [r.tag] r.color [r.name]] := by
      unfold upsertRef
      rw [if_neg (by rw [hc]; exact Bool.false_ne_true)]
      rw [updateFirstNode_skip r.nodeId _ acc _ (by
        intro m hm hmid
        exact hnotmem (hmid ▸ List.mem_map_of_mem Node.id hm))]
      rw [hupd1, upsert_new]
    have hcont : (dedupStr (done.map (fun r => r.nodeId))).contains r.nodeId = false := by
      rw [Bool.eq_false_iff]
      intro hcontra
      exact hnotmem (by rw [hids]; exact List.elem_iff.1 hcontra)
    have hnoref : done.filter (fun rr => rr.nodeId == r.nodeId) = [] := by
      rw [List.filter_eq_nil_iff]
      intro rr hrr hbeq
      have hrid : rr.nodeId = r.nodeId := by simpa using hbeq
      apply hnotmem
      rw [hids]
      exact (dedupStr_mem _ _).2 (hrid ▸ List.mem_map_of_mem (fun r => r.nodeId) hrr)
    refine ⟨?_, ?_, ?_⟩
    · rw [hres, List.map_append, hids, hmapids, dedupStr_append, if_neg]
      · rfl
      · rw [hcont]
        exact Bool.false_ne_true
    · rw [hres]
      intro n hn
      rcases List.mem_append.1 hn with hn2 | hn2
      · exact hnp n hn2
      · simp only [List.mem_singleton] at hn2
        subst hn2
        rfl
    · intro i lb cats col people hmem2
      rw [hres] at hmem2
      rcases List.mem_append.1 hmem2 with hn2 | hn2
      · have hne : ¬ i = r.nodeId := by
          intro hieq
          apply hnotmem
          rw [← hieq]
          exact List.mem_map_of_mem Node.id hn2
        have hfilter_ne : (done ++ [r]).filter (fun rr => rr.nodeId == i)
            = done.filter (fun rr => rr.nodeId == i) := by
          rw [List.filter_append]
          have hone : [r].filter (fun rr => rr.nodeId == i) = [] := by
            simp only [List.filter_cons, List.filter_nil]
            rw [if_neg]
            intro hbeq
            have hrid : r.nodeId = i := by simpa using hbeq
            exact hne hrid.symm
          rw [hone, List.append_nil]
        rw [hfilter_ne]
        exact hnodes i lb cats col people hn2
      · simp only [List.mem_singleton] at hn2
        injection hn2 with e1 e2 e3 e4 e5
        subst e1
        subst e2
        subst e3
        subst e4
        subst e5
        have hfr : (done ++ [r]).filter (fun rr => rr.nodeId == r.nodeId)
            = done.filter (fun rr => rr.nodeId == r.nodeId) ++ [r] := by
          rw [List.filter_append]
          simp
        rw [hfr, hnoref]
        constructor
        · rfl
        · rfl

lemma replay_good_aux : ∀ (refs done : List AttrRef) (acc : List Node),
    GoodAcc done acc → GoodAcc (done ++ refs) (refs.foldl upsertRef acc)
  | [], done, acc, h => by
      rw [List.append_nil]
      exact h
  | r :: rs, done, acc, h => by
      have h2 := replay_good_aux rs (done ++ [r]) (upsertRef acc r) (good_step h r)
      rw [List.append_assoc] at h2
      rw [List.foldl_cons]
      exact h2

/-- The replay of a full reference sequence satisfies the dedup
characterization. -/
lemma replayRefs_good (refs : List AttrRef) : GoodAcc refs (replayRefs refs) := by
  have h := replay_good_aux refs [] [] ⟨rfl, by simp, by simp⟩
  exact h

/-- The replay invariant tying the Phase-1 mutable state to the reference
sequence processed so far. -/
structure ReplayInv (active : List JVal) (persons : List Node)
    (refs : List AttrRef) (st : BuildState) : Prop where
  inv : AttrInv active st
  persons_shape : ∀ n ∈ persons, n.isPerson = true ∧ ∃ nm, n.id = "person:" ++ nm
  nodes_eq : st.nodes = persons ++ replayRefs refs

/-- `person:`-prefixed and `attr:`-prefixed ids never collide. -/
lemma person_attr_ne (nm s : String) : "person:" ++ nm ≠ "attr:" ++ s := by
  intro h
  have h2 : ("person:" ++ nm).data = ("attr:" ++ s).data := by rw [h]
  rw [String.data_append, String.data_append] at h2
  have hp : ("person:" : String).data = ['p','e','r','s','o','n',':'] := rfl
  have ha : ("attr:" : String).data = ['a','t','t','r',':'] := rfl
  rw [hp, ha] at h2
  simp only [List.cons_append, List.cons.injEq] at h2
  exact absurd h2.1 (by decide)

lemma contains_map_id (l : List Node) (i : String) :
    (l.map Node.id).contains i = l.any (fun n => n.id == i) := by
  induction l with
  | nil => rfl
  | cons n ns ih =>
      rw [List.map_cons, List.any_cons, ← ih, List.contains_cons]
      by_cases h : n.id = i
      · subst h
        simp
      · have h1 : (n.id == i) = false := by
          rw [beq_eq_false_iff_ne]
          exact h
        have h2 : (i == n.id) = false := by
          rw [beq_eq_false_iff_ne]
          exact fun hh => h hh.symm
        rw [h1, h2]

lemma contains_append (l1 l2 : List String) (x : String) :
    (l1 ++ l2).contains x = (l1.contains x || l2.contains x) := by
  induction l1 with
  | nil => simp
  | cons a as ih =>
      rw [List.cons_append, List.contains_cons, ih, List.contains_cons,
        Bool.or_assoc]

/-- One `processItem` step extends the replay by exactly its reference. -/
lemma processItem_replay {active : List JVal} {persons : List Node}
    {refs : List AttrRef} {cfg : AttrCfg} {emp item : JVal} {name : JVal}
    {st st' : BuildState}
    (hri : ReplayInv active persons refs st)
    (hname : getProp emp "name" = .ok name)
    (h : processItem cfg emp st item = .ok st') :
    ∃ r, itemRef cfg name item = .ok r ∧
      st'.nodes = persons ++ replayRefs (refs ++ [r]) := by
  unfold processItem at h
  rcases bind_ok h with ⟨slug, hslug, h⟩
  rcases bind_ok h with ⟨empName, hnm, h⟩
  rw [hname] at hnm
  injection hnm with hnm
  subst hnm
  refine ⟨⟨cfg.tag, cfg.color, name, item, "attr:" ++ slug⟩, by
    unfold itemRef
    rw [hslug]
    rfl, ?_⟩
  set st1 := if st.nodeIds.contains ("attr:" ++ slug) then st
    else { st with
      nodes := st.nodes ++ [.attr ("attr:" ++ slug) item [cfg.tag] cfg.color []],
      nodeIds := st.nodeIds ++ ["attr:" ++ slug] } with hst1
  have hnodes2 : st'.nodes =
      updateFirstNode ("attr:" ++ slug) (attrNodeUpd cfg.tag name) st1.nodes := by
    by_cases hk : st1.edgeKeys.contains (jsToString name ++ "->" ++ ("attr:" ++ slug)) = true
    · rw [if_pos hk] at h
      simp only [pure_eq_ok, Except.ok.injEq] at h
      rw [← h]
    · rw [Bool.not_eq_true] at hk
      rw [if_neg (by rw [hk]; exact Bool.false_ne_true)] at h
      simp only [pure_eq_ok, Except.ok.injEq] at h
      rw [← h]
  have hrep : replayRefs (refs ++ [⟨cfg.tag, cfg.color, name, item, "attr:" ++ slug⟩])
      = upsertRef (replayRefs refs) ⟨cfg.tag, cfg.color, name, item, "attr:" ++ slug⟩ := by
    unfold replayRefs
    rw [List.foldl_append]
    rfl
  have hpersons_ne : ∀ m ∈ persons, ¬ m.id = ("attr:" ++ slug) := by
    intro m hm hmid
    rcases (hri.persons_shape m hm).2 with ⟨nm2, hid⟩
    rw [hid] at hmid
    exact person_attr_ne nm2 slug hmid
  have hpc : (persons.map Node.id).contains ("attr:" ++ slug) = false := by
    rw [Bool.eq_false_iff]
    intro hcp
    rcases List.mem_map.1 (List.elem_iff.1 hcp) with ⟨m, hm, hid⟩
    exact hpersons_ne m hm hid
  have hcontains : st.nodeIds.contains ("attr:" ++ slug)
      = (replayRefs refs).any (fun n => n.id == ("attr:" ++ slug)) := by
    rw [hri.inv.ids_eq, hri.nodes_eq, List.map_append, contains_append, hpc,
      Bool.false_or, contains_map_id]
  rw [hnodes2, hrep]
  unfold upsertRef
  by_cases hcn : st.nodeIds.contains ("attr:" ++ slug) = true
  · have hany : (replayRefs refs).any (fun n => n.id == ("attr:" ++ slug)) = true := by
      rw [← hcontains]
      exact hcn
    rw [if_pos hany, hst1, if_pos hcn, hri.nodes_eq,
      updateFirstNode_skip _ _ persons _ hpersons_ne]
  · rw [Bool.not_eq_true] at hcn
    have hany : (replayRefs refs).any (fun n => n.id == ("attr:" ++ slug)) = false := by
      rw [← hcontains]
      exact hcn
    rw [if_neg (by rw [hany]; exact Bool.false_ne_true), hst1,
      if_neg (by rw [hcn]; exact Bool.false_ne_true)]
    show updateFirstNode ("attr:" ++ slug) (attrNodeUpd cfg.tag name)
        (st.nodes ++ [.attr ("attr:" ++ slug) item [cfg.tag] cfg.color []])
      = persons ++ updateFirstNode ("attr:" ++ slug) (attrNodeUpd cfg.tag name)
        (replayRefs refs ++ [.attr ("attr:" ++ slug) item [cfg.tag] cfg.color []])
    rw [hri.nodes_eq, List.append_assoc,
      updateFirstNode_skip _ _ persons _ hpersons_ne]

/-- The inner item fold extends the replay by the employee's references. -/
lemma foldItems_replay {active : List JVal} {persons : List Node} {cfg : AttrCfg}
    {emp : JVal} {name : JVal} (hemp : emp ∈ active) (hcfg : cfg ∈ attrConfig)
    (hname : getProp emp "name" = .ok name) :
    ∀ (items : List JVal) (refs : List AttrRef) (st st' : BuildState),
      ReplayInv active persons refs st →
      jsFoldExc (processItem cfg emp) st items = .ok st' →
      ∃ rs, jsMapExc (itemRef cfg name) items = .ok rs ∧
        ReplayInv active persons (refs ++ rs) st'
  | [], refs, st, st', hri, h => by
      refine ⟨[], rfl, ?_⟩
      have h2 : st = st' := by simpa [jsFoldExc] using h
      rw [List.append_nil, ← h2]
      exact hri
  | x :: xs, refs, st, st', hri, h => by
      rw [jsFoldExc_cons] at h
      rcases bind_ok h with ⟨st1, hstep, hrest⟩
      rcases processItem_replay hri hname hstep with ⟨r, hr, hnodes1⟩
      have hri1 : ReplayInv active persons (refs ++ [r]) st1 :=
        ⟨processItem_inv hemp hcfg hri.inv hstep, hri.persons_shape, hnodes1⟩
      rcases foldItems_replay hemp hcfg hname xs (refs ++ [r]) st1 st' hri1 hrest with
        ⟨rs, hmap, hri2⟩
      refine ⟨r :: rs, ?_, ?_⟩
      · unfold jsMapExc
        rw [hr, ok_bind, hmap, ok_bind]
        rfl
      · rw [List.append_assoc] at hri2
        exact hri2

/-- One `processEmpAttr` step extends the replay by `refsOfEmp`. -/
lemma processEmpAttr_replay {active : List JVal} {persons : List Node}
    {cfg : AttrCfg} {emp : JVal} {refs : List AttrRef} {st st' : BuildState}
    (hemp : emp ∈ active) (hcfg : cfg ∈ attrConfig)
    (hri : ReplayInv active persons refs st)
    (h : processEmpAttr cfg st emp = .ok st') :
    ∃ rs, refsOfEmp cfg emp = .ok rs ∧ ReplayInv active persons (refs ++ rs) st' := by
  unfold processEmpAttr at h
  rcases bind_ok h with ⟨fieldData, hfd, h⟩
  have hnn : nonNullish emp := by
    cases emp
    · exact absurd hfd (by simp [getProp])
    · exact absurd hfd (by simp [getProp])
    all_goals trivial
  rcases getProp_ok (v := emp) "name" hnn with ⟨name, hname⟩
  by_cases ht : truthy fieldData = true
  · rw [if_neg (by simp [ht])] at h
    rcases bind_ok h with ⟨raw, hraw, h⟩
    rcases bind_ok h with ⟨items, hitems, h⟩
    rcases foldItems_replay hemp hcfg hname
      (dedupSVZ (items.map normalizeLabelJ)) refs st st' hri h with ⟨rs, hmap, hri2⟩
    refine ⟨rs, ?_, hri2⟩
    unfold refsOfEmp getAttrs
    rw [hfd, ok_bind, if_neg (by simp [ht]), hraw, ok_bind, hitems, ok_bind,
      pure_eq_ok, ok_bind, hname, ok_bind]
    exact hmap
  · rw [Bool.not_eq_true] at ht
    rw [if_pos (by simp [ht])] at h
    simp only [pure_eq_ok, Except.ok.injEq] at h
    refine ⟨[], ?_, ?_⟩
    · unfold refsOfEmp getAttrs
      rw [hfd, ok_bind, if_pos (by simp [ht]), pure_eq_ok, ok_bind, hname, ok_bind]
      rfl
    · rw [List.append_nil, ← h]
      exact hri

/-- The employee fold of one dimension pass extends the replay by its
references. -/
lemma foldEmps_replay {active : List JVal} {persons : List Node} {cfg : AttrCfg}
    (hcfg : cfg ∈ attrConfig) :
    ∀ (emps' : List JVal), (∀ e ∈ emps', e ∈ active) →
    ∀ (refs : List AttrRef) (st st' : BuildState),
      ReplayInv active persons refs st →
      jsFoldExc (processEmpAttr cfg) st emps' = .ok st' →
      ∃ rss, jsMapExc (refsOfEmp cfg) emps' = .ok rss ∧
        ReplayInv active persons (refs ++ rss.flatten) st'
  | [], _, refs, st, st', hri, h => by
      refine ⟨[], rfl, ?_⟩
      have h2 : st = st' := by simpa [jsFoldExc] using h
      rw [show ([] : List (List AttrRef)).flatten = [] from rfl, List.append_nil, ← h2]
      exact hri
  | e :: es, hsub, refs, st, st', hri, h => by
      rw [jsFoldExc_cons] at h
      rcases bind_ok h with ⟨st1, hstep, hrest⟩
      rcases processEmpAttr_replay (hsub e (by simp)) hcfg hri hstep with
        ⟨rs, hre, hri1⟩
      rcases foldEmps_replay hcfg es (fun x hx => hsub x (by simp [hx]))
        (refs ++ rs) st1 st' hri1 hrest with ⟨rss, hmap, hri2⟩
      refine ⟨rs :: rss, ?_, ?_⟩
      · unfold jsMapExc
        rw [hre, ok_bind, hmap, ok_bind]
        rfl
      · rw [show (rs :: rss).flatten = rs ++ rss.flatten from rfl,
          ← List.append_assoc]
        exact hri2

/-- The dimension fold extends the replay by the full reference sequence. -/
lemma foldCfgs_replay {active : List JVal} {persons : List Node} :
    ∀ (cfgs : List AttrCfg), (∀ c ∈ cfgs, c ∈ attrConfig) →
    ∀ (refs : List AttrRef) (st st' : BuildState),
      ReplayInv active persons refs st →
      jsFoldExc (fun st cfg => jsFoldExc (processEmpAttr cfg) st active) st cfgs
        = .ok st' →
      ∃ rss, jsMapExc (fun cfg => refsOfCfg cfg active) cfgs = .ok rss ∧
        ReplayInv active persons (refs ++ rss.flatten) st'
  | [], _, refs, st, st', hri, h => by
      refine ⟨[], rfl, ?_⟩
      have h2 : st = st' := by simpa [jsFoldExc] using h
      rw [show ([] : List (List AttrRef)).flatten = [] from rfl, List.append_nil, ← h2]
      exact hri
  | c :: cs, hsub, refs, st, st', hri, h => by
      rw [jsFoldExc_cons] at h
      rcases bind_ok h with ⟨st1, hstep, hrest⟩
      rcases foldEmps_replay (hsub c (by simp)) active (fun e he => he) refs st st1
        hri hstep with ⟨rss1, hmap1, hri1⟩
      rcases foldCfgs_replay cs (fun x hx => hsub x (by simp [hx]))
        (refs ++ rss1.flatten) st1 st' hri1 hrest with ⟨rss, hmap, hri2⟩
      refine ⟨rss1.flatten :: rss, ?_, ?_⟩
      · unfold jsMapExc
        rw [show refsOfCfg c active = .ok rss1.flatten from by
          unfold refsOfCfg
          rw [hmap1, ok_bind]
          rfl, ok_bind, hmap, ok_bind]
        rfl
      · rw [show (rss1.flatten :: rss).flatten = rss1.flatten ++ rss.flatten from rfl,
          ← List.append_assoc]
        exact hri2

/-- The node array of a successful Phase-1 run is the person nodes followed
by the replay of the full attribute-reference sequence. -/
lemma build_replay {emps : List JVal} {g : Graph}
    (h : buildMechanicalGraph emps = .ok g) :
    ∃ active refs persons,
      filterActive emps = .ok active ∧ attrRefs active = .ok refs ∧
      (∀ n ∈ persons, n.isPerson = true) ∧
      g.nodes = persons ++ replayRefs refs := by
  rcases build_split h with ⟨active, personNodes, st, shares, ha, hp, hst, hsh, hg⟩
  have hshape : ∀ n ∈ personNodes, n.isPerson = true ∧ ∃ nm, n.id = "person:" ++ nm := by
    intro node hnode
    have hf2 := jsMapExc_forall₂ hp
    rcases forall₂_mem_right hf2 node hnode with ⟨emp, hemp, hmk⟩
    rcases mkPersonNode_ok (filterActive_nonNullish ha emp hemp) with
      ⟨nm, nd, hnm, hmk2, hid, hip⟩
    rw [hmk] at hmk2
    injection hmk2 with hx
    subst hx
    exact ⟨hip, jsToString nm, hid⟩
  have hri0 : ReplayInv active personNodes []
      ⟨personNodes, [], personNodes.map Node.id, []⟩ :=
    ⟨attrInv_init ha hp, hshape, by
      show personNodes = personNodes ++ replayRefs []
      rw [show replayRefs [] = [] from rfl, List.append_nil]⟩
  rcases foldCfgs_replay attrConfig (fun c hc => hc) [] _ st hri0 hst with
    ⟨rss, hmap, hri⟩
  refine ⟨active, rss.flatten, personNodes, ha, ?_, fun n hn => (hshape n hn).1, ?_⟩
  · unfold attrRefs
    rw [hmap, ok_bind]
    rfl
  · rw [hg]
    exact hri.nodes_eq

/-- **C9**: the attribute-node upsert semantics, in full.  Relative to the
ordered sequence of references the four dimension passes make (`attrRefs`):
the attribute-node id list is the first-occurrence dedup of the reference
ids (creation on first global occurrence, never re-created), and each
attribute node's `categories` and `connectedPeople` are the ordered dedups
of the dimension tags and employee names of *all* references to its id —
union semantics, complete, never overwritten, each entry at most once, in
first-reference insertion order.  Ids are `attr:` followed by the slug of
the canonical label. -/
theorem C9_attribute_nodes (emps : List JVal) (g : Graph)
    (h : buildMechanicalGraph emps = .ok g) :
    ∃ active refs, filterActive emps = .ok active ∧ attrRefs active = .ok refs ∧
      (g.nodes.filter (fun n => !n.isPerson)).map Node.id
          = dedupStr (refs.map (fun r => r.nodeId)) ∧
      ((g.nodes.filter (fun n => !n.isPerson)).map Node.id).Nodup ∧
      ∀ n ∈ g.nodes, ∀ i lb cats col people, n = .attr i lb cats col people →
        cats = dedupStr ((refs.filter (fun r => r.nodeId == i)).map (fun r => r.tag)) ∧
        people = dedupSVZ ((refs.filter (fun r => r.nodeId == i)).map (fun r => r.name)) ∧
        cats.Nodup ∧ people.Pairwise (fun a b => svz a b = false) ∧
        ∃ s, normalizeForIdJ lb = .ok s ∧ i = "attr:" ++ s := by
  rcases build_replay h with ⟨active, refs, persons, hact, hrefs, hpers, hnodes⟩
  rcases build_attrInv h with ⟨active2, st, shares, hact2, hinv, hsh, hnodes2, hedges⟩
  obtain ⟨hids, hnpers, hper⟩ := replayRefs_good refs
  have hfilter : g.nodes.filter (fun n => !n.isPerson) = replayRefs refs := by
    rw [hnodes, List.filter_append]
    have h1 : persons.filter (fun n => !n.isPerson) = [] := by
      rw [List.filter_eq_nil_iff]
      intro n hn
      simp [hpers n hn]
    have h2 : (replayRefs refs).filter (fun n => !n.isPerson) = replayRefs refs := by
      rw [List.filter_eq_self]
      intro n hn
      simp [hnpers n hn]
    rw [h1, h2, List.nil_append]
  refine ⟨active, refs, hact, hrefs, ?_, ?_, ?_⟩
  · rw [hfilter, hids]
  · rw [hfilter, hids]
    exact dedupStr_nodup _
  · intro n hn i lb cats col people heq
    have hok := hinv.nodes_ok n (by rw [← hnodes2]; exact hn)
    rw [heq] at hok
    obtain ⟨hcnd, hppl, hslug⟩ := hok
    have hn2 : n ∈ replayRefs refs := by
      rw [hnodes] at hn
      rcases List.mem_append.1 hn with hmem | hmem
      · have hip := hpers n hmem
        rw [heq] at hip
        simp [Node.isPerson] at hip
      · exact hmem
    rw [heq] at hn2
    rcases hper i lb cats col people hn2 with ⟨hcats, hpeople⟩
    exact ⟨hcats, hpeople, hcnd, hppl, hslug⟩

/-- The first record of the spec's §8 scenario. -/
def sampleA : JVal :=
  .obj [("name", .str "A"),
        ("work_styles_and_strengths",
          .obj [("dominant_strengths", .arr [.str "AWS", .str "インフラ設計"])]),
        ("values_and_motivators", .obj [("core_values", .arr [.str "自己成長"])])]

/-- The second record of the spec's §8 scenario. -/
def sampleB : JVal :=
  .obj [("name", .str "B"),
        ("work_styles_and_strengths",
          .obj [("dominant_strengths", .arr [.str "AWS"])]),
        ("values_and_motivators", .obj [("core_values", .arr [.str "成長"])])]

/-- A small concrete record list (the spec's §8 scenario) used by several
witnesses. -/
def sampleEmployees : List JVal := [sampleA, sampleB]

/-- The Phase-1 graph of `sampleEmployees`. -/
def sampleGraph : Graph :=
  (buildMechanicalGraph sampleEmployees).toOption.getD ⟨[], []⟩

/-- Witness for C9 on the sample build. -/
theorem C9_witness :
    ∃ active refs, filterActive sampleEmployees = .ok active ∧
      attrRefs active = .ok refs ∧
      (sampleGraph.nodes.filter (fun n => !n.isPerson)).map Node.id
          = dedupStr (refs.map (fun r => r.nodeId)) ∧
      ((sampleGraph.nodes.filter (fun n => !n.isPerson)).map Node.id).Nodup ∧
      ∀ n ∈ sampleGraph.nodes, ∀ i lb cats col people,
        n = .attr i lb cats col people →
        cats = dedupStr ((refs.filter (fun r => r.nodeId == i)).map (fun r => r.tag)) ∧
        people = dedupSVZ ((refs.filter (fun r => r.nodeId == i)).map (fun r => r.name)) ∧
        cats.Nodup ∧ people.Pairwise (fun a b => svz a b = false) ∧
        ∃ s, normalizeForIdJ lb = .ok s ∧ i = "attr:" ++ s :=
  C9_attribute_nodes sampleEmployees sampleGraph rfl

/-- An employee whose canonical `AWS` label is reachable through both the
skill and the value dimension. -/
def collisionEmployee : JVal :=
  .obj [("name", .str "C"),
        ("work_styles_and_strengths",
          .obj [("dominant_strengths", .arr [.str "AWS"])]),
        ("values_and_motivators", .obj [("core_values", .arr [.str "AWS"])])]

/-- **C8**: every dimension edge has weight 1, at most one dimension edge
exists per (source, target) pair — the `edgeKey` set does not key on the
edge type — and when one (person, attribute) pair is reachable through two
dimensions, only the first-seen edge (with its type) is kept:
`collisionEmployee` reaches `attr:aws` as both a skill and a value yet the
output carries only the `HAS_SKILL` edge. -/
theorem C8_dimension_edges (emps : List JVal) (g : Graph)
    (h : buildMechanicalGraph emps = .ok g) :
    (∀ e ∈ g.edges.filter (fun e => dimEdgeTypes.contains e.type),
      e.weight = .num 1) ∧
    (g.edges.filter (fun e => dimEdgeTypes.contains e.type)).Pairwise
      (fun e1 e2 => ¬(e1.source = e2.source ∧ e1.target = e2.target)) ∧
    (buildMechanicalGraph [collisionEmployee]).map Graph.edges =
      .ok [{ source := "person:C", target := "attr:aws", type := "HAS_SKILL",
             weight := .num 1 }] := by
  rcases build_attrInv h with ⟨active, st, shares, hact, hinv, hsh, hnodes, hedges⟩
  have hshares : ∀ e ∈ shares, dimEdgeTypes.contains e.type = false := by
    intro e he
    rcases sharesEdges_mem hsh e he with ⟨p, hp, es, hes, hee⟩
    rcases sharesForPair_shape hes e hee with ⟨ht, _⟩
    rw [ht]
    rfl
  refine ⟨?_, ?_, rfl⟩
  · intro e he
    rw [hedges] at he
    rw [List.filter_append] at he
    rcases List.mem_append.1 he with hmem | hmem
    · exact (hinv.edges_shape e (List.mem_of_mem_filter hmem)).1
    · rcases List.mem_filter.1 hmem with ⟨hmem2, hpred⟩
      rw [hshares e hmem2] at hpred
      exact absurd hpred (by simp)
  · rw [hedges, List.filter_append]
    have hnil : shares.filter (fun e => dimEdgeTypes.contains e.type) = [] := by
      rw [List.filter_eq_nil_iff]
      intro e he
      simp only [Bool.not_eq_true]
      exact hshares e he
    rw [hnil, List.append_nil]
    exact List.Pairwise.sublist (List.filter_sublist _) hinv.edges_pair_nodup

/-- Witness for C8 on the sample graph. -/
theorem C8_witness :
    (∀ e ∈ sampleGraph.edges.filter (fun e => dimEdgeTypes.contains e.type),
      e.weight = .num 1) ∧
    (sampleGraph.edges.filter (fun e => dimEdgeTypes.contains e.type)).Pairwise
      (fun e1 e2 => ¬(e1.source = e2.source ∧ e1.target = e2.target)) ∧
    (buildMechanicalGraph [collisionEmployee]).map Graph.edges =
      .ok [{ source := "person:C", target := "attr:aws", type := "HAS_SKILL",
             weight := .num 1 }] :=
  C8_dimension_edges sampleEmployees sampleGraph rfl

/-- A Phase-2 environment whose single batch answers with a judgment about
two names that belong to no employee. -/
def ghostEnv : AIEnv :=
  ⟨false, some "key", some "proj",
   fun k => if k = 0 then
     .parsed [.obj [("person_a", .str "幽霊"), ("person_b", .str "亡霊"),
       ("complements", .obj [("score", .num 9), ("reason", .str "none")])]]
   else .exn⟩

/-- **C10**: every Phase-1 edge's source and target are ids of nodes of the
output graph; by contrast, an AI-generated edge takes its endpoints
unvalidated from the response's name strings, and for `ghostEnv`'s response
the appended `COMPLEMENTS` edge has a source matching no node. -/
theorem C10_referential_integrity :
    (∀ (emps : List JVal) (g : Graph), buildMechanicalGraph emps = .ok g →
      ∀ e ∈ g.edges, e.source ∈ g.nodes.map Node.id ∧
        e.target ∈ g.nodes.map Node.id) ∧
    (mainOutput ghostEnv sampleEmployees).map (fun out =>
      out.edges.any (fun e => e.ai_generated &&
        !((out.nodes.map Node.id).contains e.source))) = .ok true := by
  constructor
  · intro emps g h e he
    rcases build_attrInv h with ⟨active, st, shares, hact, hinv, hsh, hnodes, hedges⟩
    rw [hedges] at he
    rw [hnodes]
    rcases List.mem_append.1 he with hmem | hmem
    · exact hinv.edges_endpoints e hmem
    · rcases sharesEdges_mem hsh e hmem with ⟨p, hp, es, hes, hee⟩
      rcases sharesForPair_shape hes e hee with
        ⟨_, _, _, _, _, na, nb, hna, hnb, hsrc, htgt⟩
      rcases ijElemPairs_mem p hp with ⟨hp1, hp2⟩
      constructor
      · rw [hsrc]
        exact hinv.person_present p.1 hp1 na hna
      · rw [htgt]
        exact hinv.person_present p.2 hp2 nb hnb
  · rfl

/-- Witness for C10 on the sample graph's first edge. -/
theorem C10_witness :
    ({ source := "person:A", target := "attr:aws", type := "HAS_SKILL",
       weight := .num 1 } : Edge).source ∈ sampleGraph.nodes.map Node.id ∧
    ({ source := "person:A", target := "attr:aws", type := "HAS_SKILL",
       weight := .num 1 } : Edge).target ∈ sampleGraph.nodes.map Node.id :=
  C10_referential_integrity.1 sampleEmployees sampleGraph rfl
    { source := "person:A", target := "attr:aws", type := "HAS_SKILL",
      weight := .num 1 }
    (List.Mem.head _)

/-! ## Lemmas for the `SHARES` uniqueness claim -/

lemma propD_of_getProp {v w : JVal} {k : String} (h : getProp v k = .ok w) :
    propD v k = w := by
  simp [propD, h]

lemma ijElemPairs_nodup {l : List JVal} (h : l.Nodup) :
    (ijElemPairs l).Nodup := by
  induction l with
  | nil => simp [ijElemPairs]
  | cons x xs ih =>
      rcases List.nodup_cons.1 h with ⟨hx, hxs⟩
      simp only [ijElemPairs]
      rw [List.nodup_append]
      refine ⟨?_, ih hxs, ?_⟩
      · exact List.Nodup.map (fun a b hab => by
          simpa using congrArg Prod.snd hab) hxs
      · intro q hq hq2
        rcases List.mem_map.1 hq with ⟨y, _, hy⟩
        have hq1 : q.1 = x := by rw [← hy]
        have := (ijElemPairs_mem q hq2).1
        rw [hq1] at this
        exact hx this

lemma ijElemPairs_asym {l : List JVal} (h : l.Nodup) {x y : JVal}
    (hmem : (x, y) ∈ ijElemPairs l) : (y, x) ∉ ijElemPairs l := by
  induction l with
  | nil => simp [ijElemPairs] at hmem
  | cons z zs ih =>
      rcases List.nodup_cons.1 h with ⟨hz, hzs⟩
      simp only [ijElemPairs] at hmem ⊢
      intro hcontra
      rcases List.mem_append.1 hmem with hm | hm
      · rcases List.mem_map.1 hm with ⟨y2, hy2, hy2eq⟩
        have hx : x = z := by
          have := congrArg Prod.fst hy2eq
          simpa using this.symm
        have hy : y = y2 := by
          have := congrArg Prod.snd hy2eq
          simpa using this.symm
        rcases List.mem_append.1 hcontra with hc | hc
        · rcases List.mem_map.1 hc with ⟨x2, hx2, hx2eq⟩
          have : y = z := by
            have := congrArg Prod.fst hx2eq
            simpa using this.symm
          rw [← this] at hz
          rw [hy] at hz
          exact hz hy2
        · have := (ijElemPairs_mem _ hc).2
          simp only at this
          rw [hx] at this
          exact hz this
      · have hxz : x ∈ zs := (ijElemPairs_mem _ hm).1
        have hyz : y ∈ zs := (ijElemPairs_mem _ hm).2
        rcases List.mem_append.1 hcontra with hc | hc
        · rcases List.mem_map.1 hc with ⟨x2, hx2, hx2eq⟩
          have : y = z := by
            have := congrArg Prod.fst hx2eq
            simpa using this.symm
          rw [this] at hyz
          exact hz hyz
        · exact ih hzs hm hc

lemma forall₂_names_eq :
    ∀ {l ns : List JVal},
      List.Forall₂ (fun x y => getProp x "name" = .ok y) l ns →
      ns = l.map (fun e => propD e "name") := by
  intro l ns h
  induction h with
  | nil => rfl
  | cons hR _ ih =>
      simp only [List.map_cons]
      rw [propD_of_getProp hR, ih]

lemma names_eq_map {active ns : List JVal}
    (h : jsMapExc (fun e => getProp e "name") active = .ok ns) :
    ns = active.map (fun e => propD e "name") :=
  forall₂_names_eq (jsMapExc_forall₂ h)

/-- Every `pred`-matching shares edge inside the flattened per-pair results
belongs to the distinguished pair: zero matches when that pair is absent. -/
lemma countP_flatten_zero {pred : Edge → Bool} {p : JVal × JVal} :
    ∀ {ps : List (JVal × JVal)} {ess : List (List Edge)},
      List.Forall₂ (fun q es => sharesForPair q.1 q.2 = .ok es) ps ess →
      (∀ q ∈ ps, ∀ es, sharesForPair q.1 q.2 = .ok es →
        ∀ e ∈ es, pred e = true → q = p) →
      p ∉ ps → ess.flatten.countP pred = 0 := by
  intro ps ess hF2 hmatch hout
  induction hF2 with
  | nil => rfl
  | cons hR htail ih =>
      rename_i q es ps' ess'
      simp only [List.flatten_cons, List.countP_append]
      have h1 : es.countP pred = 0 := by
        rw [List.countP_eq_zero]
        intro e he hpred
        exact hout (by rw [← hmatch q (by simp) es hR e he hpred]; simp)
      rw [h1, ih (fun q2 hq2 => hmatch q2 (by simp [hq2]))
        (fun hmem => hout (by simp [hmem]))]

/-- The flattened per-pair results carry exactly the matches of the
distinguished pair's own result. -/
lemma countP_flatten_single {pred : Edge → Bool} {p : JVal × JVal} :
    ∀ {ps : List (JVal × JVal)} {ess : List (List Edge)},
      List.Forall₂ (fun q es => sharesForPair q.1 q.2 = .ok es) ps ess →
      ps.Nodup →
      (∀ q ∈ ps, ∀ es, sharesForPair q.1 q.2 = .ok es →
        ∀ e ∈ es, pred e = true → q = p) →
      p ∈ ps →
      ∀ esp, sharesForPair p.1 p.2 = .ok esp →
      ess.flatten.countP pred = esp.countP pred := by
  intro ps ess hF2 hnodup hmatch hin esp hesp
  induction hF2 with
  | nil => simp at hin
  | cons hR htail ih =>
      rename_i q es ps' ess'
      simp only [List.flatten_cons, List.countP_append]
      rcases List.nodup_cons.1 hnodup with ⟨hq, hps'⟩
      by_cases hpq : q = p
      · subst hpq
        rw [hesp] at hR
        injection hR with hR
        subst hR
        rw [countP_flatten_zero htail
          (fun q2 hq2 => hmatch q2 (by simp [hq2])) hq]
        simp
      · have hin' : p ∈ ps' := by
          rcases List.mem_cons.1 hin with h1 | h1
          · exact absurd h1.symm hpq
          · exact h1
        have h1 : es.countP pred = 0 := by
          rw [List.countP_eq_zero]
          intro e he hpred
          exact hpq (hmatch q (by simp) es hR e he hpred)
        rw [h1, ih hps' (fun q2 hq2 => hmatch q2 (by simp [hq2])) hin']
        simp

/-- With pairwise-distinct coerced names, any matching edge of any pair's
result identifies the distinguished pair. -/
lemma shares_pred_ident {active : List JVal} (hnodupA : active.Nodup)
    (hinj : ∀ x ∈ active, ∀ y ∈ active,
      jsToString (propD x "name") = jsToString (propD y "name") → x = y)
    {p q : JVal × JVal} (hp : p ∈ ijElemPairs active)
    (hq : q ∈ ijElemPairs active) {aName bName : JVal}
    (haN : getProp p.1 "name" = .ok aName) (hbN : getProp p.2 "name" = .ok bName)
    {es : List Edge} (hes : sharesForPair q.1 q.2 = .ok es) {e : Edge}
    (he : e ∈ es)
    (hpred : (e.type == "SHARES" &&
      ((e.source == "person:" ++ jsToString aName &&
        e.target == "person:" ++ jsToString bName) ||
       (e.source == "person:" ++ jsToString bName &&
        e.target == "person:" ++ jsToString aName))) = true) :
    q = p := by
  rcases sharesForPair_shape hes e he with
    ⟨_, _, _, _, _, na, nb, hna, hnb, hsrc, htgt⟩
  simp only [Bool.and_eq_true, Bool.or_eq_true, beq_iff_eq] at hpred
  rcases ijElemPairs_mem q hq with ⟨hq1, hq2⟩
  rcases ijElemPairs_mem p hp with ⟨hp1, hp2⟩
  rcases hpred with ⟨_, ⟨hs, ht⟩ | ⟨hs, ht⟩⟩
  · rw [hsrc] at hs
    rw [htgt] at ht
    have e1 : q.1 = p.1 := hinj q.1 hq1 p.1 hp1 (by
      rw [propD_of_getProp hna, propD_of_getProp haN]
      exact string_append_cancel hs)
    have e2 : q.2 = p.2 := hinj q.2 hq2 p.2 hp2 (by
      rw [propD_of_getProp hnb, propD_of_getProp hbN]
      exact string_append_cancel ht)
    exact Prod.ext e1 e2
  · rw [hsrc] at hs
    rw [htgt] at ht
    have e1 : q.1 = p.2 := hinj q.1 hq1 p.2 hp2 (by
      rw [propD_of_getProp hna, propD_of_getProp hbN]
      exact string_append_cancel hs)
    have e2 : q.2 = p.1 := hinj q.2 hq2 p.1 hp1 (by
      rw [propD_of_getProp hnb, propD_of_getProp haN]
      exact string_append_cancel ht)
    have hqp : q = (p.2, p.1) := Prod.ext e1 e2
    exfalso
    apply ijElemPairs_asym hnodupA hp
    rw [hqp] at hq
    exact hq

set_option maxHeartbeats 800000 in
/-- **C1**: for every `i<j` pair of active employees (under pairwise
distinct coerced names), exactly one `SHARES` edge joins their two person
nodes iff the canonical overlap weight is positive, that edge's weight is
`|skills∩| + |values∩| + |interests∩|` over the per-employee
`normalize_label`-deduplicated lists (motivation triggers excluded), and it
carries the three intersection lists. -/
theorem C1_shares_edges (emps active ns : List JVal) (g : Graph)
    (hact : filterActive emps = .ok active)
    (hbuild : buildMechanicalGraph emps = .ok g)
    (hns : jsMapExc (fun e => getProp e "name") active = .ok ns)
    (hnodup : (ns.map jsToString).Nodup) :
    ∀ p ∈ ijElemPairs active, ∃ aSk bSk aVl bVl aIn bIn aName bName,
      getAttrs p.1 "work_styles_and_strengths" "dominant_strengths" = .ok aSk ∧
      getAttrs p.2 "work_styles_and_strengths" "dominant_strengths" = .ok bSk ∧
      getAttrs p.1 "values_and_motivators" "core_values" = .ok aVl ∧
      getAttrs p.2 "values_and_motivators" "core_values" = .ok bVl ∧
      getAttrs p.1 "current_state" "recent_topics_of_interest" = .ok aIn ∧
      getAttrs p.2 "current_state" "recent_topics_of_interest" = .ok bIn ∧
      getProp p.1 "name" = .ok aName ∧ getProp p.2 "name" = .ok bName ∧
      (0 < sharedWeightOf aSk bSk aVl bVl aIn bIn →
        mkSharesEdge aName bName aSk bSk aVl bVl aIn bIn ∈ g.edges) ∧
      g.edges.countP (fun e => e.type == "SHARES" &&
          ((e.source == "person:" ++ jsToString aName &&
            e.target == "person:" ++ jsToString bName) ||
           (e.source == "person:" ++ jsToString bName &&
            e.target == "person:" ++ jsToString aName))) =
        (if 0 < sharedWeightOf aSk bSk aVl bVl aIn bIn then 1 else 0) := by
  intro p hp
  rcases build_attrInv hbuild with
    ⟨active2, st, shares, hact2, hinv, hsh, hnodes, hedges⟩
  rw [hact] at hact2
  injection hact2 with hact2
  subst hact2
  have hmapEq := names_eq_map hns
  rw [hmapEq, List.map_map] at hnodup
  have hnodupA : active.Nodup := List.Nodup.of_map _ hnodup
  have hinj : ∀ x ∈ active, ∀ y ∈ active,
      jsToString (propD x "name") = jsToString (propD y "name") → x = y := by
    intro x hx y hy hxy
    exact List.inj_on_of_nodup_map hnodup hx hy (by
      simpa [Function.comp] using hxy)
  have hnnact := filterActive_nonNullish hact
  rcases ijElemPairs_mem p hp with ⟨hp1, hp2⟩
  rcases getProp_ok (v := p.1) "name" (hnnact _ hp1) with ⟨aName, haN⟩
  rcases getProp_ok (v := p.2) "name" (hnnact _ hp2) with ⟨bName, hbN⟩
  unfold sharesEdges at hsh
  rcases bind_ok hsh with ⟨ess, hess, hflat⟩
  simp only [pure_eq_ok, Except.ok.injEq] at hflat
  subst hflat
  have hF2 := jsMapExc_forall₂ hess
  rcases forall₂_mem_left hF2 p hp with ⟨esp, hespMem, hesp⟩
  rcases sharesForPair_spec hesp with
    ⟨aSk, bSk, aVl, bVl, aIn, bIn, h1, h2, h3, h4, h5, h6, hposS, hzeroS⟩
  refine ⟨aSk, bSk, aVl, bVl, aIn, bIn, aName, bName,
    h1, h2, h3, h4, h5, h6, haN, hbN, ?_, ?_⟩
  · intro hw
    rcases hposS hw with ⟨aName2, bName2, haN2, hbN2, hespEq⟩
    rw [haN] at haN2
    injection haN2 with haN2
    subst haN2
    rw [hbN] at hbN2
    injection hbN2 with hbN2
    subst hbN2
    rw [hedges]
    apply List.mem_append_right
    exact List.mem_flatten.2 ⟨esp, hespMem, by rw [hespEq]; simp⟩
  · rw [hedges, List.countP_append]
    have hstZero : st.edges.countP (fun e => e.type == "SHARES" &&
        ((e.source == "person:" ++ jsToString aName &&
          e.target == "person:" ++ jsToString bName) ||
         (e.source == "person:" ++ jsToString bName &&
          e.target == "person:" ++ jsToString aName))) = 0 := by
      rw [List.countP_eq_zero]
      intro e he
      rcases hinv.edges_shape e he with ⟨_, htype, _⟩
      simp only [dimEdgeTypes, List.mem_cons, List.mem_singleton,
        List.not_mem_nil, or_false] at htype
      rcases htype with hh | hh | hh | hh <;> simp [hh]
    have hmatch : ∀ q ∈ ijElemPairs active, ∀ es,
        sharesForPair q.1 q.2 = .ok es → ∀ e ∈ es,
        (fun e : Edge => e.type == "SHARES" &&
          ((e.source == "person:" ++ jsToString aName &&
            e.target == "person:" ++ jsToString bName) ||
           (e.source == "person:" ++ jsToString bName &&
            e.target == "person:" ++ jsToString aName))) e = true → q = p :=
      fun q hq es hes e he hpred =>
        shares_pred_ident hnodupA hinj hp hq haN hbN hes he hpred
    have hcount := countP_flatten_single hF2 (ijElemPairs_nodup hnodupA)
      hmatch hp esp hesp
    rw [hstZero, hcount, Nat.zero_add]
    by_cases hw : 0 < sharedWeightOf aSk bSk aVl bVl aIn bIn
    · rw [if_pos hw]
      rcases hposS hw with ⟨aName2, bName2, haN2, hbN2, hespEq⟩
      rw [haN] at haN2
      injection haN2 with haN2
      subst haN2
      rw [hbN] at hbN2
      injection hbN2 with hbN2
      subst hbN2
      rw [hespEq]
      simp [mkSharesEdge, List.countP_cons]
    · rw [if_neg hw]
      rw [hzeroS (by omega)]
      rfl

/-- Witness for C1 on the §8 scenario pair: expected one `SHARES` edge of
weight 2 between A and B. -/
theorem C1_witness :
    ∃ aSk bSk aVl bVl aIn bIn aName bName,
      getAttrs sampleA "work_styles_and_strengths" "dominant_strengths" = .ok aSk ∧
      getAttrs sampleB "work_styles_and_strengths" "dominant_strengths" = .ok bSk ∧
      getAttrs sampleA "values_and_motivators" "core_values" = .ok aVl ∧
      getAttrs sampleB "values_and_motivators" "core_values" = .ok bVl ∧
      getAttrs sampleA "current_state" "recent_topics_of_interest" = .ok aIn ∧
      getAttrs sampleB "current_state" "recent_topics_of_interest" = .ok bIn ∧
      getProp sampleA "name" = .ok aName ∧ getProp sampleB "name" = .ok bName ∧
      (0 < sharedWeightOf aSk bSk aVl bVl aIn bIn →
        mkSharesEdge aName bName aSk bSk aVl bVl aIn bIn ∈ sampleGraph.edges) ∧
      sampleGraph.edges.countP (fun e => e.type == "SHARES" &&
          ((e.source == "person:" ++ jsToString aName &&
            e.target == "person:" ++ jsToString bName) ||
           (e.source == "person:" ++ jsToString bName &&
            e.target == "person:" ++ jsToString aName))) =
        (if 0 < sharedWeightOf aSk bSk aVl bVl aIn bIn then 1 else 0) :=
  C1_shares_edges sampleEmployees sampleEmployees [.str "A", .str "B"] sampleGraph
    rfl rfl rfl (by decide) (sampleA, sampleB) (List.Mem.head _)
